import Mathlib

/-!
Verification development for the `arm_bin2elf.py` BIN-to-ELF converter.

The Python source is shallowly embedded below.  Machine integers are
modelled as `Nat`/`Int` with explicit `% 2^32` where the Python code wraps
(`c_uint`), the flattened firmware image is a `List Nat` of bytes, Python
dictionaries (which iterate in insertion order) are association lists, and
Python exceptions (`EOFError`, `AssertionError`, failing seeks / key
errors) are modelled with `Except Unit`.  Loops are expressed as
structural recursion on an explicit fuel argument; every top-level entry
point supplies fuel that provably dominates the number of iterations the
Python loop can perform, so the out-of-fuel branch (`.error ()`) is
unreachable from the wrappers.
-/

/-! ## Association lists with Python-dict semantics -/

/-- Lookup in an insertion-ordered dictionary (`d[k]`, first matching key). -/
def dictGet {α : Type} (d : List (String × α)) (k : String) : Option α :=
  (d.find? (fun p => p.1 == k)).map (fun p => p.2)

/-- Key-membership test (`k in d`). -/
def dictMem {α : Type} (k : String) (d : List (String × α)) : Bool :=
  d.any (fun p => p.1 == k)

/-- Dictionary update `d[k] = v`: replaces the entry in place when the key
exists, appends otherwise, preserving insertion order like a Python dict
(whose keys are necessarily duplicate-free). -/
def dictSet {α : Type} : List (String × α) → String → α → List (String × α)
  | [], k, v => [(k, v)]
  | p :: rest, k, v =>
    if p.1 == k then (k, v) :: rest else p :: dictSet rest k v

/-! ## AddressMath (`sign_extend`, `prel31_to_addr`) -/

/-- Embedding of `sign_extend(value, bits)` from `arm_bin2elf.py`:
`(value & (sign_bit - 1)) - (value & sign_bit)` with
`sign_bit = 1 << (bits - 1)`, on unbounded integers. -/
def sign_extend (value : Nat) (bits : Nat) : Int :=
  let sign_bit : Nat := 1 <<< (bits - 1)
  ((value &&& (sign_bit - 1) : Nat) : Int) - ((value &&& sign_bit : Nat) : Int)

/-- Embedding of `prel31_to_addr(ptr, refptr)`: `c_uint(refptr + offset).value`,
i.e. the sum wrapped into 32 bits. -/
def prel31_to_addr (ptr refptr : Nat) : Nat :=
  let offset := sign_extend ptr 31
  (((refptr : Int) + offset) % (2 ^ 32 : Int)).toNat

/-! ## ExIdxEntry and the entry validator -/

/-- The two little-endian 32-bit words of an `.ARM.exidx` entry
(`ExIdxEntry` in the source, 8 bytes packed). -/
structure ExIdxEntry where
  tboffs : Nat
  entry : Nat

/-- Little-endian 32-bit word read at byte offset `p` of the image
(callers establish `p + 4 ≤ file.length`; out-of-range bytes read as 0). -/
def u32At (file : List Nat) (p : Nat) : Nat :=
  file.getD p 0 + 0x100 * file.getD (p + 1) 0 + 0x10000 * file.getD (p + 2) 0
    + 0x1000000 * file.getD (p + 3) 0

/-- Embedding of `armfw_is_proper_ARMexidx_entry`.  `expect_sect_align` is
`po.expect_sect_align`.  The only Python-level exception on this path is a
negative `seek` (when the resolved table offset lies below `memaddr_base`),
modelled as `.error ()`; a short read of the personality-routine word just
makes the validator return `False`.  The two heuristic acceptance windows
are compared over `Int`, exactly as Python compares possibly-negative
unbounded integers. -/
def armfw_is_proper_ARMexidx_entry (expect_sect_align : Nat) (file : List Nat)
    (eexidx : ExIdxEntry) (memaddr_base func_align arr_pos ent_pos : Nat) :
    Except Unit Bool :=
  if eexidx.tboffs = 0 ∨ eexidx.tboffs &&& 0x80000000 ≠ 0 then .ok false
  else
    let glob_offs := prel31_to_addr eexidx.tboffs (memaddr_base + ent_pos)
    if glob_offs ≤ memaddr_base ∨ memaddr_base + arr_pos ≤ glob_offs ∨
        glob_offs % func_align ≠ 0 then .ok false
    else if eexidx.entry = 0x01 then .ok true
    else if eexidx.entry &&& 0x80000000 ≠ 0 then
      if eexidx.entry &&& 0x70000000 ≠ 0 then .ok false else .ok true
    else
      let tbent_offs := prel31_to_addr eexidx.entry (memaddr_base + ent_pos)
      if ((memaddr_base + arr_pos : Int) - expect_sect_align * 0x10 ≤ tbent_offs ∧
            (tbent_offs : Int) ≤ (memaddr_base + arr_pos : Int) - 4) ∨
          ((tbent_offs : Int) < (memaddr_base + ent_pos : Int) + expect_sect_align * 0x20 ∧
            (memaddr_base + ent_pos + 8 : Int) ≤ tbent_offs) then
        if tbent_offs % 4 ≠ 0 then .ok false
        else if tbent_offs < memaddr_base then .error ()
        else
          let tbpos := tbent_offs - memaddr_base
          if tbpos + 4 ≤ file.length then
            let pr := u32At file tbpos
            if pr ≤ memaddr_base ∨ memaddr_base + arr_pos ≤ pr ∨
                pr % func_align ≠ 0 then .ok false
            else .ok true
          else .ok false
      else .ok false

/-! ## ExceptionIndexScanner (`armfw_detect_sect_ARMexidx`) -/

/-- Inner loop of `armfw_detect_sect_ARMexidx`: counts how many proper
entries lie consecutively from `entry_pos` (for the candidate section start
`pos`).  Returns `(entry_count, entry_pos, reached_eof)`; a short
`readinto` sets the EOF flag.  Fuel dominates the iteration count. -/
def exidx_entry_run (fuel : Nat) (E : Nat) (file : List Nat)
    (base fa pos entry_pos count : Nat) : Except Unit (Nat × Nat × Bool) :=
  match fuel with
  | 0 => .error ()
  | fuel + 1 =>
    if entry_pos + 8 ≤ file.length then
      let e : ExIdxEntry := ⟨u32At file entry_pos, u32At file (entry_pos + 4)⟩
      match armfw_is_proper_ARMexidx_entry E file e base fa pos entry_pos with
      | .error u => .error u
      | .ok true => exidx_entry_run fuel E file base fa pos (entry_pos + 8) (count + 1)
      | .ok false => .ok (count, entry_pos, false)
    else .ok (count, entry_pos, true)

/-- One candidate position of the outer scan: the entry run at `pos`,
followed by the padding check that discards a nonempty run whose trailing
bytes up to the next `sa`-boundary are not a uniform fill of `0x00`
(`padding[0] != 0x00 or len(set(padding)) > 1`).  Returns the entry count
after the check, the end position of the run, and the EOF flag.  The
`padding = []` case (where Python's `padding[0]` would raise) is modelled
as `.error ()`; it is unreachable because a non-EOF run end always has at
least 8 readable bytes after it. -/
def exidx_candidate (E : Nat) (file : List Nat) (base fa sa pos : Nat) :
    Except Unit (Nat × Nat × Bool) :=
  match exidx_entry_run (file.length + 1) E file base fa pos pos 0 with
  | .error u => .error u
  | .ok (cnt, epos, eof) =>
    if eof then .ok (cnt, epos, true)
    else if 0 < cnt ∧ 0 < epos % sa then
      let padding := (file.drop epos).take (sa - epos % sa)
      if padding = [] then .error ()
      else
        let p0 := padding.headD 0
        if p0 ≠ 0 ∨ ¬ (padding.all (fun b => b = p0)) then .ok (0, epos, false)
        else .ok (cnt, epos, false)
    else .ok (cnt, epos, false)

/-- Outer loop of `armfw_detect_sect_ARMexidx`, with the accumulator
`(match_pos, match_entries, match_count)` exactly as in the source:
every accepted candidate overwrites `match_pos`/`match_entries`, the loop
only stops when a run reaches end-of-input. -/
def exidx_scan (fuel : Nat) (E : Nat) (file : List Nat) (base fa sa pos : Nat)
    (match_pos : Int) (match_entries match_count : Nat) :
    Except Unit (Int × Nat × Nat) :=
  match fuel with
  | 0 => .error ()
  | fuel + 1 =>
    match exidx_candidate E file base fa sa pos with
    | .error u => .error u
    | .ok (cnt, _epos, eof) =>
      if eof then .ok (match_pos, match_entries, match_count)
      else if 0 < cnt then
        exidx_scan fuel E file base fa sa (pos + sa) (pos : Int) cnt (match_count + 1)
      else
        exidx_scan fuel E file base fa sa (pos + sa) match_pos match_entries match_count

/-- Embedding of `armfw_detect_sect_ARMexidx(po, fwpartfile, memaddr_base,
start_pos, func_align, sect_align)`.  `E` is `po.expect_sect_align` (used by
the validator's heuristic windows), `sa` the `sect_align` argument.  The
returned `Bool` records whether the multiple-match ambiguity warning was
printed (`match_count > 1`).  The leading `assert sect_align >= 8` is
modelled as `.error ()` when violated. -/
def armfw_detect_sect_ARMexidx (E : Nat) (file : List Nat)
    (memaddr_base start_pos fa sa : Nat) : Except Unit ((Int × Nat) × Bool) :=
  if 8 ≤ sa then
    match exidx_scan (file.length + 1) E file memaddr_base fa sa start_pos (-1) 0 0 with
    | .error u => .error u
    | .ok (mp, me, mc) =>
      let warn := decide (1 < mc)
      if mc < 1 then .ok ((-1, 0), warn) else .ok ((mp, me * 8), warn)
  else .error ()

/-- Specification-side companion of `exidx_scan`: the list of all
`(position, entry_count)` pairs the scanner accepts before reaching
end-of-input, in scan order.  Used to state that the scanner keeps the
last accepted candidate. -/
def exidx_accepted_list (fuel : Nat) (E : Nat) (file : List Nat)
    (base fa sa pos : Nat) : Except Unit (List (Nat × Nat)) :=
  match fuel with
  | 0 => .error ()
  | fuel + 1 =>
    match exidx_candidate E file base fa sa pos with
    | .error u => .error u
    | .ok (cnt, _epos, eof) =>
      if eof then .ok []
      else if 0 < cnt then
        (exidx_accepted_list fuel E file base fa sa (pos + sa)).map
          (fun l => (pos, cnt) :: l)
      else exidx_accepted_list fuel E file base fa sa (pos + sa)

/-! ## EmptyRegionScanner (`armfw_detect_empty_sect_ARMexidx`) -/

/-- Loop of `armfw_detect_empty_sect_ARMexidx`: scan `sa`-sized windows; an
all-zero window extends the match (recording its end), the first non-zero
window after a match stops the scan. -/
def exidx_empty_scan (fuel : Nat) (file : List Nat) (sa pos : Nat)
    (match_pos : Int) (match_count : Nat) : Except Unit (Int × Nat) :=
  match fuel with
  | 0 => .error ()
  | fuel + 1 =>
    let buf := (file.drop pos).take sa
    if buf.length ≠ sa then
      if match_count < 1 then .ok (-1, 0) else .ok (match_pos, 0)
    else if buf ≠ [] ∧ buf.all (fun b => b = 0) then
      exidx_empty_scan fuel file sa (pos + sa) ((pos : Int) + sa) (match_count + 1)
    else if 0 < match_count then .ok (match_pos, 0)
    else exidx_empty_scan fuel file sa (pos + sa) match_pos match_count

/-- Embedding of `armfw_detect_empty_sect_ARMexidx` (the `memaddr_base` and
`func_align` parameters are unused by the source body). -/
def armfw_detect_empty_sect_ARMexidx (file : List Nat)
    (_memaddr_base start_pos _fa sa : Nat) : Except Unit (Int × Nat) :=
  exidx_empty_scan (file.length + 2) file sa start_pos (-1) 0

/-! ## The option record `po` and the settle functions -/

/-- The fields of the parsed-options object `po` that the conversion core
reads and writes.  `section_addr` / `section_size` are insertion-ordered
dictionaries; values are unbounded integers as in Python (`settle` steps
can produce negative sizes from adversarial overrides). -/
structure Po where
  baseaddr : Nat
  addrspacelen : Nat
  expect_func_align : Nat
  expect_sect_align : Nat
  section_addr : List (String × Int)
  section_size : List (String × Int)
  dry_run : Bool

/-- Embedding of `armfw_bin2elf_settle_sect_ARMexidx`.  With an explicit
address override both scanners are skipped, `sect_len` is set to
`po.expect_sect_align` and only the missing size is filled in; otherwise
the real scanner runs at `expect_sect_align`, is retried at half that
alignment, then the empty-region scanner runs, and a triple failure is the
`EOFError` path. -/
def armfw_bin2elf_settle_sect_ARMexidx (po : Po) (file : List Nat) :
    Except Unit Po :=
  if dictMem ".ARM.exidx" po.section_addr then
    let sect_len : Int := po.expect_sect_align
    if dictMem ".ARM.exidx" po.section_size then .ok po
    else .ok { po with section_size := dictSet po.section_size ".ARM.exidx" sect_len }
  else
    let step1 := armfw_detect_sect_ARMexidx po.expect_sect_align file po.baseaddr 0
      po.expect_func_align po.expect_sect_align
    match step1 with
    | .error u => .error u
    | .ok ((p1, l1), _) =>
      let step2 : Except Unit (Int × Nat) :=
        if p1 < 0 then
          match armfw_detect_sect_ARMexidx po.expect_sect_align file po.baseaddr 0
            po.expect_func_align (po.expect_sect_align >>> 1) with
          | .error u => .error u
          | .ok (r, _) => .ok r
        else .ok (p1, l1)
      match step2 with
      | .error u => .error u
      | .ok (p2, l2) =>
        let step3 : Except Unit (Int × Nat) :=
          if p2 < 0 then
            armfw_detect_empty_sect_ARMexidx file po.baseaddr 0
              po.expect_func_align po.expect_sect_align
          else .ok (p2, l2)
        match step3 with
        | .error u => .error u
        | .ok (p3, l3) =>
          if p3 < 0 then .error ()
          else
            let po1 := { po with
              section_addr := dictSet po.section_addr ".ARM.exidx" ((po.baseaddr : Int) + p3) }
            if dictMem ".ARM.exidx" po1.section_size then .ok po1
            else .ok { po1 with
              section_size := dictSet po1.section_size ".ARM.exidx" (l3 : Int) }

/-- Embedding of `armfw_bin2elf_settle_sect_text`.  The leading assert
(`.ARM.exidx` settled) and the `EOFError` for a too-small code region are
both `.error ()`. -/
def armfw_bin2elf_settle_sect_text (po : Po) : Except Unit Po :=
  match dictGet po.section_addr ".ARM.exidx" with
  | none => .error ()
  | some ea =>
    let sect_pos : Int := ea - po.baseaddr
    let step1 : Except Unit Po :=
      if dictMem ".text" po.section_addr then .ok po
      else if (po.expect_func_align : Int) * 8 < sect_pos then
        .ok { po with section_addr := dictSet po.section_addr ".text" (po.baseaddr : Int) }
      else .error ()
    match step1 with
    | .error u => .error u
    | .ok po1 =>
      if dictMem ".text" po1.section_size then .ok po1
      else
        match dictGet po1.section_addr ".text" with
        | none => .error ()
        | some ta =>
          .ok { po1 with
            section_size := dictSet po1.section_size ".text" (sect_pos - (ta - po.baseaddr)) }

/-- Embedding of `armfw_bin2elf_settle_sect_data`: `.data` starts right
after `.ARM.exidx` (the local `sect_align` is 1, so the alignment bump is a
no-op) and, when its size is not overridden, extends to end-of-input. -/
def armfw_bin2elf_settle_sect_data (po : Po) (filelen : Nat) : Except Unit Po :=
  match dictGet po.section_addr ".ARM.exidx", dictGet po.section_size ".ARM.exidx" with
  | some ea, some el =>
    let sect_pos0 : Int := ea - po.baseaddr
    let step1 : Po × Int :=
      if dictMem ".data" po.section_addr then
        (po, (dictGet po.section_addr ".data").getD 0 - po.baseaddr)
      else
        let sp := sect_pos0 + el
        let sp := if sp % 1 ≠ 0 then sp + (1 - sp % 1) else sp
        ({ po with section_addr := dictSet po.section_addr ".data" ((po.baseaddr : Int) + sp) }, sp)
    match step1 with
    | (po1, sect_pos) =>
      if dictMem ".data" po1.section_size then .ok po1
      else .ok { po1 with
        section_size := dictSet po1.section_size ".data" ((filelen : Int) - sect_pos) }
  | _, _ => .error ()

/-- Matches the `^[.]bss[0-9]+$` regular expression used for extra
uninitialized sections: the four characters `.bss` followed by at least
one decimal digit. -/
def isBssN (s : String) : Bool :=
  match s.toList with
  | '.' :: 'b' :: 's' :: 's' :: rest => decide (rest ≠ []) && rest.all Char.isDigit
  | _ => false

/-- Loop over the `.bssN` keys of `section_size` in
`armfw_bin2elf_settle_sect_bss`: the `sect_align` there is 1, so the
alignment bump is a no-op; each section without an address override chains
right after the previous one. -/
def bss_extra_loop (base : Nat) (keys : List String) (sect_pos sect_len : Int)
    (po : Po) : Po :=
  match keys with
  | [] => po
  | k :: rest =>
    if isBssN k then
      let step : Po × Int :=
        if dictMem k po.section_addr then
          (po, (dictGet po.section_addr k).getD 0 - base)
        else
          let sp := sect_pos + sect_len
          let sp := if sp % 1 ≠ 0 then sp + (1 - sp % 1) else sp
          ({ po with section_addr := dictSet po.section_addr k ((base : Int) + sp) }, sp)
      match step with
      | (po1, sp) =>
        let sl := (dictGet po1.section_size k).getD 0
        bss_extra_loop base rest sp sl po1
    else bss_extra_loop base rest sect_pos sect_len po

/-- Embedding of `armfw_bin2elf_settle_sect_bss`: the primary `.bss` starts
at the end of `.data` with size `addrspacelen - pos` clamped at zero, then
any `.bssN` sections named in `section_size` are chained after it. -/
def armfw_bin2elf_settle_sect_bss (po : Po) : Except Unit Po :=
  match dictGet po.section_addr ".data", dictGet po.section_size ".data" with
  | some da, some dl =>
    let sect_pos0 : Int := da - po.baseaddr
    let step1 : Po × Int :=
      if dictMem ".bss" po.section_addr then
        (po, (dictGet po.section_addr ".bss").getD 0 - po.baseaddr)
      else
        let sp := sect_pos0 + dl
        let sp := if sp % 1 ≠ 0 then sp + (1 - sp % 1) else sp
        ({ po with section_addr := dictSet po.section_addr ".bss" ((po.baseaddr : Int) + sp) }, sp)
    match step1 with
    | (po1, sect_pos) =>
      let step2 : Po × Int :=
        if dictMem ".bss" po1.section_size then
          (po1, (dictGet po1.section_size ".bss").getD 0)
        else
          let sl := (po.addrspacelen : Int) - sect_pos
          let sl := if sl < 0 then 0 else sl
          ({ po1 with section_size := dictSet po1.section_size ".bss" sl }, sl)
      match step2 with
      | (po2, sect_len) =>
        .ok (bss_extra_loop po.baseaddr (po2.section_size.map (fun p => p.1))
          sect_pos sect_len po2)
  | _, _ => .error ()

/-! ## LayoutReconciler: section order -/

/-- Insert into a strictly ascending list, dropping duplicates.  Folding
this over the address values realises Python's `sorted(set(...))`. -/
def sortedInsert (x : Int) : List Int → List Int
  | [] => [x]
  | y :: ys =>
    if x < y then x :: y :: ys
    else if x = y then y :: ys
    else y :: sortedInsert x ys

/-- `sorted(set(l))`: the distinct elements of `l` in ascending order. -/
def sortedDedup (l : List Int) : List Int := l.foldr sortedInsert []

/-- Loop of `armfw_bin2elf_get_sections_order` over the sorted distinct
addresses: stop with a warning at the first address beyond the limit; at
each address first append the zero-sized sections, then the remaining ones
(the second pass skips names already in the list). -/
def orderGo (addrs sizes : List (String × Int)) (limit : Int) :
    List Int → List String → (List String × Bool)
  | [], acc => (acc, false)
  | a :: rest, acc =>
    if limit < a then (acc, true)
    else
      let acc1 := addrs.foldl (fun ac p =>
        if p.2 == a &&
            (match dictGet sizes p.1 with
             | some s => decide (s < 1)
             | none => false) then ac ++ [p.1] else ac) acc
      let acc2 := addrs.foldl (fun ac p =>
        if p.2 == a && !(ac.contains p.1) then ac ++ [p.1] else ac) acc1
      orderGo addrs sizes limit rest acc2

/-- Embedding of `armfw_bin2elf_get_sections_order`; the `Bool` records
whether the beyond-address-space warning was printed. -/
def armfw_bin2elf_get_sections_order (po : Po) (addrspace_limit : Int) :
    List String × Bool :=
  orderGo po.section_addr po.section_size addrspace_limit
    (sortedDedup (po.section_addr.map (fun p => p.2))) []

/-! ## LayoutReconciler: size back-fill -/

/-- The clamped `sectpos_delta` of `armfw_bin2elf_update_sect_sizes`:
`delta = sectaddr_next - addr`, reduced to `limit + 1 - E - addr` when
`addr + delta` would exceed `limit + 1 - E` (one section-alignment unit of
headroom below the end of the address space). -/
def clampDelta (E : Nat) (limit a next : Int) : Int :=
  if limit + 1 - E < a + (next - a) then limit + 1 - E - a else next - a

/-- Loop of `armfw_bin2elf_update_sect_sizes` over the reversed section
order.  `next` is `sectaddr_next`; the two non-negativity asserts are
`.error ()` (the first checks the raw delta, the second the clamped one),
the overlap clamp records the section name in the warning list. -/
def sizes_go (E : Nat) (limit : Int) (addrs : List (String × Int)) :
    List String → Int → List (String × Int) → List String →
    Except Unit (List (String × Int) × List String)
  | [], _, sizes, warns => .ok (sizes, warns)
  | n :: rest, next, sizes, warns =>
    match dictGet addrs n with
    | none => .error ()
    | some a =>
      if next - a < 0 then .error ()
      else if clampDelta E limit a next < 0 then .error ()
      else
        match dictGet sizes n with
        | some s =>
          if clampDelta E limit a next < s then
            sizes_go E limit addrs rest a (dictSet sizes n (clampDelta E limit a next))
              (warns ++ [n])
          else sizes_go E limit addrs rest a sizes warns
        | none =>
          sizes_go E limit addrs rest a (dictSet sizes n (clampDelta E limit a next)) warns

/-- Embedding of `armfw_bin2elf_update_sect_sizes`; the returned list names
the sections whose explicit size was clamped (each clamp prints a
warning). -/
def armfw_bin2elf_update_sect_sizes (po : Po) (order : List String)
    (addrspace_limit : Int) : Except Unit (Po × List String) :=
  match sizes_go po.expect_sect_align addrspace_limit po.section_addr
    order.reverse ((po.baseaddr : Int) + po.addrspacelen + 1) po.section_size [] with
  | .error u => .error u
  | .ok (sizes, warns) => .ok ({ po with section_size := sizes }, warns)

/-! ## LayoutReconciler: alignment inference and file positions -/

/-- One halving loop of `armfw_bin2elf_get_sections_align`:
`while (x % a) != 0: a >>= 1`.  The fuel dominates the number of halvings
(the Python loop would only fail to terminate for `a = 0`, i.e. a zero
`expect_sect_align`, where `x % 0` raises `ZeroDivisionError`; the
program hard-codes `expect_sect_align = 0x10`). -/
def align_halve_loop (fuel : Nat) (x : Int) (a : Nat) : Nat :=
  match fuel with
  | 0 => a
  | fuel + 1 => if x % (a : Int) = 0 then a else align_halve_loop fuel x (a >>> 1)

/-- Alignment inferred for one section by
`armfw_bin2elf_get_sections_align`: start at `expect_sect_align << 1` and
halve while the address, then the size, is not a multiple. -/
def sections_align_one (E : Nat) (addr size : Int) : Nat :=
  let a0 := E <<< 1
  let a1 := align_halve_loop (a0 + 1) addr a0
  align_halve_loop (a1 + 1) size a1

/-- Embedding of `armfw_bin2elf_get_sections_align` over the section order
(a missing dictionary key would be a Python `KeyError`). -/
def armfw_bin2elf_get_sections_align (po : Po) (order : List String) :
    Except Unit (List (String × Nat)) :=
  match order with
  | [] => .ok []
  | n :: rest =>
    match dictGet po.section_addr n, dictGet po.section_size n with
    | some a, some s =>
      (armfw_bin2elf_get_sections_align po rest).map
        (fun l => (n, sections_align_one po.expect_sect_align a s) :: l)
    | _, _ => .error ()

/-- Embedding of `armfw_bin2elf_get_sections_pos`: file position is
`address - baseaddr` clamped at zero. -/
def armfw_bin2elf_get_sections_pos (po : Po) (order : List String) :
    Except Unit (List (String × Int)) :=
  match order with
  | [] => .ok []
  | n :: rest =>
    match dictGet po.section_addr n with
    | some a =>
      let p : Int := a - po.baseaddr
      let p := if p < 0 then 0 else p
      (armfw_bin2elf_get_sections_pos po rest).map (fun l => (n, p) :: l)
    | none => .error ()

/-! ## ContainerBuilder (`armfw_bin2elf_update_elffile`) -/

/-- Model of an ELF section descriptor as exposed by the external library:
name, whether its type is `SHT_NOBITS`, and the mutable header fields and
payload the converter touches. -/
structure ElfSect where
  name : String
  nobits : Bool
  sh_addr : Int
  sh_addralign : Int
  sh_size : Int
  data : List Nat

/-- Model of the loaded template object: entry point plus the ordered
section table. -/
structure ElfModel where
  e_entry : Int
  sections : List ElfSect

/-- Splits a section name according to the source's
`^(?P<name>[.].*[^0-9])(?P<num>[0-9]+)$` pattern: a stem starting with
`'.'` of length at least 2 (whose last character is then necessarily not a
digit), followed by a nonempty run of digits. -/
def splitNameNum (s : String) : Option (String × String) :=
  let cs := s.toList
  let digits := (cs.reverse.takeWhile (fun c => c.isDigit)).reverse
  let stem := cs.take (cs.length - digits.length)
  if 0 < digits.length ∧ 2 ≤ stem.length ∧ stem.head? = some '.' then
    some (String.mk stem, String.mk digits)
  else none

/-- `insert_section_after(prev, s)`: insert `s` after the first section
named `prev` (appending at the end if `prev` is absent, which the
converter never does: `prev` always names an existing section). -/
def insertAfterName : List ElfSect → String → ElfSect → List ElfSect
  | [], _, s => [s]
  | t :: rest, prev, s =>
    if t.name == prev then t :: s :: rest else t :: insertAfterName rest prev s

/-- `set_section_by_name(n, s)`: replace the first section named `n`. -/
def setByName : List ElfSect → String → ElfSect → List ElfSect
  | [], _, _ => []
  | t :: rest, n, s => if t.name == n then s :: rest else t :: setByName rest n s

/-- Payload installation for one matched descriptor (the tail of the
per-section body of `armfw_bin2elf_update_elffile`): `SHT_NOBITS` sections
only get their size set; a non-positive size installs an empty payload;
otherwise `size` bytes are requested from the image at `pos` and the
`EOFError` is raised exactly when the read comes back empty (`if not
data_buf`). -/
def sect_data_install (file : List Nat) (nobits : Bool) (size pos : Int)
    (s : ElfSect) : Except Unit ElfSect :=
  if nobits then .ok { s with sh_size := size }
  else if size ≤ 0 then .ok { s with data := [], sh_size := 0 }
  else
    let buf := (file.drop pos.toNat).take size.toNat
    if buf.isEmpty then .error ()
    else .ok { s with data := buf, sh_size := (buf.length : Int) }

/-- Per-section body of `armfw_bin2elf_update_elffile`: find the template
descriptor by name, or clone the numeric-suffix base descriptor and insert
the clone after the previous sibling; then set address and alignment and
install the payload.  Failures (`sectname_m` is `None`, i.e. an
`AttributeError`; a missing cloneable base, i.e. the `EOFError`; a missing
layout entry, i.e. a `KeyError`) are `.error ()`. -/
def elf_update_one (file : List Nat) (addrs sizes : List (String × Int))
    (poss : List (String × Int)) (aligns : List (String × Nat))
    (secs : List ElfSect) (n : String) : Except Unit (List ElfSect) :=
  let found : Except Unit (List ElfSect × ElfSect) :=
    match secs.find? (fun t => t.name == n) with
    | some s => .ok (secs, s)
    | none =>
      match splitNameNum n with
      | none => .error ()
      | some (stem, num) =>
        match secs.find? (fun t => t.name == stem) with
        | none => .error ()
        | some s0 =>
          let s := { s0 with name := n }
          let prevCand := stem ++ toString ((num.toNat?.getD 0 : Int) - 1)
          let prev := if (secs.find? (fun t => t.name == prevCand)).isSome then
              prevCand else stem
          .ok (insertAfterName secs prev s, s)
  match found with
  | .error u => .error u
  | .ok (secs1, s) =>
    match dictGet addrs n, dictGet sizes n, dictGet poss n, dictGet aligns n with
    | some a, some sz, some p, some al =>
      let s1 := { s with sh_addr := a, sh_addralign := (al : Int) }
      match sect_data_install file s1.nobits sz p s1 with
      | .error u => .error u
      | .ok s2 => .ok (setByName secs1 n s2)
    | _, _, _, _ => .error ()

/-- Loop of `armfw_bin2elf_update_elffile` over the section order. -/
def elf_update_go (file : List Nat) (addrs sizes poss : List (String × Int))
    (aligns : List (String × Nat)) (secs : List ElfSect) :
    List String → Except Unit (List ElfSect)
  | [] => .ok secs
  | n :: rest =>
    match elf_update_one file addrs sizes poss aligns secs n with
    | .error u => .error u
    | .ok secs1 => elf_update_go file addrs sizes poss aligns secs1 rest

/-- Embedding of `armfw_bin2elf_update_elffile`: sets the entry point to
`baseaddr` and patches every section of the resolved layout into the
template's section table. -/
def armfw_bin2elf_update_elffile (po : Po) (file : List Nat)
    (tmpl : List ElfSect) (order : List String) (poss : List (String × Int))
    (aligns : List (String × Nat)) : Except Unit ElfModel :=
  match elf_update_go file po.section_addr po.section_size poss aligns tmpl order with
  | .error u => .error u
  | .ok secs => .ok { e_entry := (po.baseaddr : Int), sections := secs }

/-! ## The complete conversion (`armfw_bin2elf`) -/

/-- The data a conversion run resolves: the section order, the final
address/size dictionaries, per-section alignments and file positions, and
the patched container (`none` when `--dry-run` skips `write_changes`). -/
structure ConvResult where
  order : List String
  addrs : List (String × Int)
  sizes : List (String × Int)
  aligns : List (String × Nat)
  poss : List (String × Int)
  container : Option ElfModel

/-- The container actually serialized: `write_changes` is skipped in
dry-run mode, so no output container exists then. -/
def containerOf (dry_run : Bool) (em : ElfModel) : Option ElfModel :=
  if dry_run then none else some em

/-- Embedding of `armfw_bin2elf` (32-bit address space, so
`addrspace_limit = 2^32 - 1`): the four settle steps, ordering, size
back-fill, alignment inference, file positions, and the template patch.
Template copying is pure I/O and does not affect the result. -/
def armfw_bin2elf (po : Po) (file : List Nat) (tmpl : List ElfSect) :
    Except Unit ConvResult :=
  match armfw_bin2elf_settle_sect_ARMexidx po file with
  | .error u => .error u
  | .ok po1 =>
    match armfw_bin2elf_settle_sect_text po1 with
    | .error u => .error u
    | .ok po2 =>
      match armfw_bin2elf_settle_sect_data po2 file.length with
      | .error u => .error u
      | .ok po3 =>
        match armfw_bin2elf_settle_sect_bss po3 with
        | .error u => .error u
        | .ok po4 =>
          match armfw_bin2elf_update_sect_sizes po4
            (armfw_bin2elf_get_sections_order po4 (2 ^ 32 - 1)).1 (2 ^ 32 - 1) with
          | .error u => .error u
          | .ok (po5, _warns) =>
            match armfw_bin2elf_get_sections_align po5
              (armfw_bin2elf_get_sections_order po4 (2 ^ 32 - 1)).1 with
            | .error u => .error u
            | .ok aligns =>
              match armfw_bin2elf_get_sections_pos po5
                (armfw_bin2elf_get_sections_order po4 (2 ^ 32 - 1)).1 with
              | .error u => .error u
              | .ok poss =>
                match armfw_bin2elf_update_elffile po5 file tmpl
                  (armfw_bin2elf_get_sections_order po4 (2 ^ 32 - 1)).1 poss aligns with
                | .error u => .error u
                | .ok em =>
                  .ok { order := (armfw_bin2elf_get_sections_order po4 (2 ^ 32 - 1)).1,
                        addrs := po5.section_addr,
                        sizes := po5.section_size, aligns := aligns, poss := poss,
                        container := containerOf po.dry_run em }

/-- Big-step relation of a complete conversion run: one derivation per
stage of `armfw_bin2elf`.  Used to state that the conversion is a function
of the image, template and configuration. -/
inductive RunsTo (po : Po) (file : List Nat) (tmpl : List ElfSect) :
    ConvResult → Prop where
  | mk (po1 po2 po3 po4 po5 : Po) (warns : List String) (order : List String)
      (warnO : Bool) (aligns : List (String × Nat)) (poss : List (String × Int))
      (em : ElfModel)
      (h1 : armfw_bin2elf_settle_sect_ARMexidx po file = .ok po1)
      (h2 : armfw_bin2elf_settle_sect_text po1 = .ok po2)
      (h3 : armfw_bin2elf_settle_sect_data po2 file.length = .ok po3)
      (h4 : armfw_bin2elf_settle_sect_bss po3 = .ok po4)
      (h5 : armfw_bin2elf_get_sections_order po4 (2 ^ 32 - 1) = (order, warnO))
      (h6 : armfw_bin2elf_update_sect_sizes po4 order (2 ^ 32 - 1) = .ok (po5, warns))
      (h7 : armfw_bin2elf_get_sections_align po5 order = .ok aligns)
      (h8 : armfw_bin2elf_get_sections_pos po5 order = .ok poss)
      (h9 : armfw_bin2elf_update_elffile po5 file tmpl order poss aligns = .ok em) :
      RunsTo po file tmpl
        { order := order, addrs := po5.section_addr, sizes := po5.section_size,
          aligns := aligns, poss := poss,
          container := containerOf po.dry_run em }

/-! ## Dictionary lemmas -/

theorem dictMem_eq_isSome {α : Type} (k : String) (d : List (String × α)) :
    dictMem k d = (dictGet d k).isSome := by
  induction d with
  | nil => rfl
  | cons p rest ih =>
    simp only [dictMem, dictGet, List.any_cons, List.find?_cons] at *
    cases h : p.1 == k with
    | true => simp [h]
    | false => simpa [h] using ih

theorem dictGet_dictSet_self {α : Type} (d : List (String × α)) (k : String) (v : α) :
    dictGet (dictSet d k v) k = some v := by
  induction d with
  | nil => simp [dictSet, dictGet, List.find?_cons]
  | cons p rest ih =>
    cases h : p.1 == k with
    | true => simp [dictSet, dictGet, h, List.find?_cons]
    | false => simpa [dictSet, dictGet, h, List.find?_cons] using ih

theorem dictGet_dictSet_other {α : Type} (d : List (String × α)) (k k' : String)
    (v : α) (hne : k' ≠ k) : dictGet (dictSet d k v) k' = dictGet d k' := by
  have hkk : (k == k') = false := by
    cases h : k == k'
    · rfl
    · exact absurd (beq_iff_eq.mp h).symm hne
  induction d with
  | nil => simp [dictSet, dictGet, List.find?_cons, hkk]
  | cons p rest ih =>
    cases h : p.1 == k with
    | true =>
      have hp : (p.1 == k') = false := by
        cases h2 : p.1 == k'
        · rfl
        · exact absurd (((beq_iff_eq.mp h).symm.trans (beq_iff_eq.mp h2)).symm) hne
      simp [dictSet, dictGet, h, hp, hkk, List.find?_cons]
    | false =>
      cases h2 : p.1 == k' with
      | true => simp [dictSet, dictGet, h, h2, List.find?_cons]
      | false => simpa [dictSet, dictGet, h, h2, List.find?_cons] using ih

/-- With duplicate-free keys, a key determines its value. -/
theorem keys_nodup_val_eq {α : Type} {d : List (String × α)}
    (h : (d.map Prod.fst).Nodup) {k : String} {v1 v2 : α}
    (h1 : (k, v1) ∈ d) (h2 : (k, v2) ∈ d) : v1 = v2 := by
  induction d with
  | nil => cases h1
  | cons p rest ih =>
    rw [List.map_cons, List.nodup_cons] at h
    rcases List.mem_cons.mp h1 with e1 | m1 <;>
      rcases List.mem_cons.mp h2 with e2 | m2
    · rw [← e1] at e2; exact (Prod.mk.injEq _ _ _ _ |>.mp e2.symm).2
    · exact absurd (List.mem_map.mpr ⟨(k, v2), m2, by rw [← e1]⟩) h.1
    · exact absurd (List.mem_map.mpr ⟨(k, v1), m1, by rw [← e2]⟩) h.1
    · exact ih h.2 m1 m2

/-! ## Claim C7: `prel31_to_addr` versus `sign_extend` -/

/-- `sign_extend value 31` in closed form: the low 30 bits, minus `2^30`
when bit 30 is set. -/
theorem sign_extend_31_eq (value : Nat) :
    sign_extend value 31 =
      ((value % 2 ^ 30 : Nat) : Int) - (value.testBit 30).toNat * 2 ^ 30 := by
  have h1 : (1 : Nat) <<< (31 - 1) = 2 ^ 30 := by
    simp [Nat.shiftLeft_eq]
  simp only [sign_extend, h1, Nat.and_pow_two_sub_one_eq_mod, Nat.and_two_pow]
  push_cast
  ring

theorem sign_extend_31_nonneg (value : Nat) (h : value.testBit 30 = false) :
    0 ≤ sign_extend value 31 := by
  rw [sign_extend_31_eq, h]
  have : (0 : Int) ≤ ((value % 2 ^ 30 : Nat) : Int) := Int.ofNat_nonneg _
  simpa using this

theorem sign_extend_31_neg (value : Nat) (h : value.testBit 30 = true) :
    sign_extend value 31 < 0 := by
  rw [sign_extend_31_eq, h]
  have : ((value % 2 ^ 30 : Nat) : Int) < 2 ^ 30 := by
    exact_mod_cast Nat.mod_lt _ (by norm_num)
  simp only [Bool.toNat_true, Nat.cast_one, one_mul]
  push_cast
  push_cast at this
  linarith

/-- C7 counterexample: the claim fails in the presence of 32-bit wrapping.
At `field = 2^30` (bit 31 clear, bit 30 set) and `reference = 0` the code
computes `(0 - 2^30) mod 2^32 = 0xC0000000`, which is not below the
reference, contradicting the claimed `result < reference` for a set
bit 30. -/
theorem prel31_to_addr_wrap_cex :
    Nat.testBit (2 ^ 30) 31 = false ∧ Nat.testBit (2 ^ 30) 30 = true ∧
    prel31_to_addr (2 ^ 30) 0 = 3221225472 ∧
    ¬ ((prel31_to_addr (2 ^ 30) 0 : Int) < (0 : Nat)) := by
  refine ⟨by decide, by decide, by decide, by decide⟩

/-- C7 amended: for a `field` with bit 31 clear and a 32-bit `reference`,
provided `reference + sign_extend field 31` does not wrap modulo `2^32`
(it stays within `[0, 2^32)`), `prel31_to_addr` is consistent with
`sign_extend`: a clear bit 30 gives a result at least `reference - 2^30`,
a set bit 30 gives a result strictly below `reference`. -/
theorem prel31_to_addr_sign_extend_consistent (field refptr : Nat)
    (h31 : field.testBit 31 = false) (href : refptr < 2 ^ 32)
    (hlo : 0 ≤ (refptr : Int) + sign_extend field 31)
    (hhi : (refptr : Int) + sign_extend field 31 < 2 ^ 32) :
    (field.testBit 30 = false →
      (refptr : Int) - 2 ^ 30 ≤ (prel31_to_addr field refptr : Int)) ∧
    (field.testBit 30 = true →
      (prel31_to_addr field refptr : Int) < refptr) := by
  have key : ((prel31_to_addr field refptr : Nat) : Int) =
      (refptr : Int) + sign_extend field 31 := by
    show (((((refptr : Int) + sign_extend field 31) % (2 ^ 32 : Int)).toNat : Nat) : Int) = _
    rw [Int.emod_eq_of_lt hlo hhi, Int.toNat_of_nonneg hlo]
  constructor
  · intro h30
    have := sign_extend_31_nonneg field h30
    rw [key]
    linarith [(by positivity : (0 : Int) < 2 ^ 30)]
  · intro h30
    have := sign_extend_31_neg field h30
    rw [key]
    linarith

/-- Witness for the amended C7 at `field = 2`, `reference = 256`. -/
theorem prel31_to_addr_sign_extend_consistent_witness :
    (Nat.testBit 2 30 = false →
      ((256 : Nat) : Int) - 2 ^ 30 ≤ (prel31_to_addr 2 256 : Int)) ∧
    (Nat.testBit 2 30 = true → (prel31_to_addr 2 256 : Int) < (256 : Nat)) :=
  prel31_to_addr_sign_extend_consistent 2 256 (by decide) (by decide)
    (by decide) (by decide)

/-! ## Claim C3: alignment inference -/

/-- Behaviour of one halving loop started at a power of two: the result is
the largest `2^j` with `j ≤ m` dividing `x` (every smaller power also
divides; with enough fuel the loop always reaches it). -/
theorem align_halve_loop_two_pow (x : Int) :
    ∀ m fuel, m < fuel →
      ∃ j, j ≤ m ∧ align_halve_loop fuel x (2 ^ m) = 2 ^ j ∧
        x % ((2 ^ j : Nat) : Int) = 0 ∧
        ∀ t, t ≤ m → x % ((2 ^ t : Nat) : Int) = 0 → t ≤ j := by
  intro m
  induction m with
  | zero =>
    intro fuel hfuel
    match fuel, hfuel with
    | fuel + 1, _ =>
      refine ⟨0, le_refl _, ?_, by simp, fun t ht _ => ht⟩
      simp [align_halve_loop]
  | succ m ih =>
    intro fuel hfuel
    match fuel, hfuel with
    | fuel + 1, hfuel =>
      have hstep : align_halve_loop (fuel + 1) x (2 ^ (m + 1)) =
          if x % ((2 ^ (m + 1) : Nat) : Int) = 0 then 2 ^ (m + 1)
          else align_halve_loop fuel x ((2 ^ (m + 1)) >>> 1) := rfl
      by_cases hdvd : x % ((2 ^ (m + 1) : Nat) : Int) = 0
      · exact ⟨m + 1, le_refl _, by rw [hstep, if_pos hdvd], hdvd,
          fun t ht _ => ht⟩
      · have hshift : (2 ^ (m + 1) : Nat) >>> 1 = 2 ^ m := by
          rw [Nat.shiftRight_eq_div_pow, pow_succ]
          simp
        have hfuel' : m < fuel := by omega
        obtain ⟨j, hj, heq, hmod, hmax⟩ := ih fuel hfuel'
        refine ⟨j, by omega, ?_, hmod, ?_⟩
        · rw [hstep, if_neg hdvd, hshift]
          exact heq
        · intro t ht hm
          rcases Nat.lt_or_ge t (m + 1) with h | h
          · exact hmax t (by omega) hm
          · have : t = m + 1 := by omega
            rw [this] at hm
            exact absurd hm hdvd

/-- C3 counterexample: with the configured `expect_sect_align = 0x10`, a
section at address `0x20` of size `0x20` is assigned alignment `0x20` —
twice the configured expectation, refuting "never exceeds the configured
expected section alignment". -/
theorem sections_align_exceeds_expectation_cex :
    sections_align_one 16 32 32 = 32 ∧ ¬ (sections_align_one 16 32 32 ≤ 16) := by
  refine ⟨by decide, by decide⟩

/-- C3 amended: for a power-of-two expectation `E = 2^k` (the program
hard-codes `0x10`), the inferred alignment divides both the resolved
address and size, is at least every candidate `2^t` (`t ≤ k+1`, i.e. every
value reachable from `2E` by halving) that divides both, and never exceeds
twice the configured expectation. -/
theorem sections_align_one_characterization (k : Nat) (addr size : Int) (E : Nat)
    (hE : E = 2 ^ k) (t : Nat) (ht : t ≤ k + 1)
    (hta : addr % ((2 ^ t : Nat) : Int) = 0)
    (hts : size % ((2 ^ t : Nat) : Int) = 0) :
    addr % ((sections_align_one E addr size : Nat) : Int) = 0 ∧
    size % ((sections_align_one E addr size : Nat) : Int) = 0 ∧
    sections_align_one E addr size ≤ 2 * E ∧
    (2 ^ t : Nat) ≤ sections_align_one E addr size := by
  have ha0 : E <<< 1 = 2 ^ (k + 1) := by
    rw [Nat.shiftLeft_eq, hE]
    ring
  have hdef : sections_align_one E addr size =
      align_halve_loop (align_halve_loop (E <<< 1 + 1) addr (E <<< 1) + 1) size
        (align_halve_loop (E <<< 1 + 1) addr (E <<< 1)) := rfl
  have hfuel1 : k + 1 < 2 ^ (k + 1) + 1 := by
    have := Nat.lt_two_pow (k + 1)
    omega
  obtain ⟨j, hj, heq1, hmod1, hmax1⟩ := align_halve_loop_two_pow addr (k + 1) _ hfuel1
  have hfuel2 : j < 2 ^ j + 1 := by
    have := Nat.lt_two_pow j
    omega
  obtain ⟨i, hi, heq2, hmod2, hmax2⟩ := align_halve_loop_two_pow size j _ hfuel2
  have hval : sections_align_one E addr size = 2 ^ i := by
    rw [hdef, ha0, heq1, heq2]
  rw [hval]
  have hdvdpow : ((2 ^ i : Nat) : Int) ∣ ((2 ^ j : Nat) : Int) := by
    push_cast
    exact pow_dvd_pow 2 hi
  refine ⟨?_, hmod2, ?_, ?_⟩
  · exact Int.emod_emod_of_dvd addr hdvdpow ▸ by
      rw [hmod1, Int.zero_emod]
  · calc (2 ^ i : Nat) ≤ 2 ^ (k + 1) :=
        Nat.pow_le_pow_right (by norm_num) (le_trans hi hj)
      _ = 2 * E := by rw [hE]; ring
  · have htj : t ≤ j := hmax1 t ht hta
    have hti : t ≤ i := hmax2 t htj hts
    exact Nat.pow_le_pow_right (by norm_num) hti

/-- Witness for the amended C3 at `E = 16 = 2^4`, address `0x20`,
size `0x30`, candidate `2^4`. -/
theorem sections_align_one_characterization_witness :
    (32 : Int) % ((sections_align_one 16 32 48 : Nat) : Int) = 0 ∧
    (48 : Int) % ((sections_align_one 16 32 48 : Nat) : Int) = 0 ∧
    sections_align_one 16 32 48 ≤ 2 * 16 ∧
    (2 ^ 4 : Nat) ≤ sections_align_one 16 32 48 :=
  sections_align_one_characterization 4 32 48 16 (by decide) 4 (by decide)
    (by decide) (by decide)

/-! ## Claim C4: payload installation and short reads -/

/-- A fresh descriptor used for concrete payload-installation runs. -/
def blankSect : ElfSect :=
  { name := ".x", nobits := false, sh_addr := 0, sh_addralign := 0,
    sh_size := 0, data := [] }

/-- C4 counterexample: installing a loaded section of resolved size 10 at
file position 4 of a 10-byte image (only 6 bytes available) raises no
error and silently installs the 6 available bytes, refuting both "reads
exactly the resolved byte length" and "raises a fatal error whenever the
source image holds fewer bytes than the resolved size demands". -/
theorem sect_data_install_short_read_cex :
    sect_data_install (List.range 10) false 10 4 blankSect =
      .ok { blankSect with data := [4, 5, 6, 7, 8, 9], sh_size := 6 } ∧
    (List.range 10).length - (4 : Nat) < 10 := ⟨rfl, by decide⟩

/-- C4 amended: for a loaded (non-`SHT_NOBITS`) section of positive
resolved size, installation fails exactly when the image holds **no**
byte at the resolved position (`read` returns an empty buffer); when the
image holds at least the resolved size, exactly that many bytes are
installed; in between, the available suffix is installed silently. -/
theorem sect_data_install_amended (file : List Nat) (size pos : Int)
    (s : ElfSect) (hnb : s.nobits = false) (hsz : 0 < size) :
    (sect_data_install file s.nobits size pos s = .error () ↔
      file.length ≤ pos.toNat) ∧
    (pos.toNat + size.toNat ≤ file.length →
      sect_data_install file s.nobits size pos s =
        .ok { s with data := (file.drop pos.toNat).take size.toNat,
                     sh_size := size }) := by
  rw [hnb]
  have hns : ¬ (size ≤ 0) := by omega
  have hstep : sect_data_install file false size pos s =
      (if (file.drop pos.toNat).take size.toNat |>.isEmpty then .error ()
       else .ok { s with data := (file.drop pos.toNat).take size.toNat,
                         sh_size := (((file.drop pos.toNat).take size.toNat).length : Int) }) := by
    unfold sect_data_install
    simp [hns]
  have hlen : ((file.drop pos.toNat).take size.toNat).length =
      min size.toNat (file.length - pos.toNat) := by
    simp [List.length_take, List.length_drop]
  have hszn : 0 < size.toNat := by omega
  constructor
  · rw [hstep]
    by_cases hemp : ((file.drop pos.toNat).take size.toNat).isEmpty
    · rw [if_pos hemp]
      rw [List.isEmpty_iff_length_eq_zero, hlen] at hemp
      constructor
      · intro _; omega
      · intro _; rfl
    · rw [if_neg hemp]
      rw [List.isEmpty_iff_length_eq_zero, hlen] at hemp
      constructor
      · intro h; cases h
      · intro h; omega
  · intro hfit
    have hlen2 : ((file.drop pos.toNat).take size.toNat).length = size.toNat := by
      omega
    have hemp : ¬ ((file.drop pos.toNat).take size.toNat).isEmpty := by
      rw [List.isEmpty_iff_length_eq_zero, hlen2]
      omega
    rw [hstep, if_neg hemp, hlen2]
    have : ((size.toNat : Nat) : Int) = size := Int.toNat_of_nonneg (by omega)
    rw [this, hnb]

/-- Witness for the amended C4: a 10-byte image, position 2, size 3. -/
theorem sect_data_install_amended_witness :
    (sect_data_install (List.range 10) blankSect.nobits 3 2 blankSect = .error () ↔
      (List.range 10).length ≤ (2 : Int).toNat) ∧
    ((2 : Int).toNat + (3 : Int).toNat ≤ (List.range 10).length →
      sect_data_install (List.range 10) blankSect.nobits 3 2 blankSect =
        .ok { blankSect with
                data := ((List.range 10).drop (2 : Int).toNat).take (3 : Int).toNat,
                sh_size := 3 }) :=
  sect_data_install_amended (List.range 10) 3 2 blankSect rfl (by decide)

/-! ## Claim C5: the code region before the anchor -/

/-- Options with the anchor override placed exactly `8 * expect_func_align`
bytes after the base. -/
def c5po : Po :=
  { baseaddr := 4096, addrspacelen := 100, expect_func_align := 2,
    expect_sect_align := 16, section_addr := [(".ARM.exidx", 4096 + 16)],
    section_size := [], dry_run := false }

/-- C5 counterexample: a code-region span of exactly `8 ×` the
function-alignment constant (16 bytes at `expect_func_align = 2`) is *not*
accepted — the resolver raises, refuting "a span of exactly 8 times the
constant is accepted" (the code requires a strictly larger span). -/
theorem armfw_bin2elf_settle_sect_text_exact_span_cex :
    armfw_bin2elf_settle_sect_text c5po = .error () ∧
    ¬ ((4096 + 16 : Int) - 4096 < 2 * 8) := ⟨rfl, by decide⟩

/-- C5 amended: without a `.text` override the code region is placed at
offset 0 (address `baseaddr`) extending to the anchor offset, and the
resolver errors out *iff* the span is at most `8 ×` the function-alignment
constant (a span of exactly `8 ×` the constant is also rejected). -/
theorem armfw_bin2elf_settle_sect_text_amended (po : Po) (ea : Int)
    (hea : dictGet po.section_addr ".ARM.exidx" = some ea)
    (hta : dictMem ".text" po.section_addr = false)
    (hts : dictMem ".text" po.section_size = false) :
    (armfw_bin2elf_settle_sect_text po = .error () ↔
      ea - po.baseaddr ≤ (po.expect_func_align : Int) * 8) ∧
    ((po.expect_func_align : Int) * 8 < ea - po.baseaddr →
      armfw_bin2elf_settle_sect_text po =
        .ok { po with
          section_addr := dictSet po.section_addr ".text" (po.baseaddr : Int),
          section_size := dictSet po.section_size ".text" (ea - po.baseaddr) }) := by
  have hstep : armfw_bin2elf_settle_sect_text po =
      (if (po.expect_func_align : Int) * 8 < ea - po.baseaddr then
        .ok { po with
          section_addr := dictSet po.section_addr ".text" (po.baseaddr : Int),
          section_size := dictSet po.section_size ".text"
            ((ea - po.baseaddr) - ((po.baseaddr : Int) - po.baseaddr)) }
       else .error ()) := by
    unfold armfw_bin2elf_settle_sect_text
    rw [hea]
    simp only [hta, Bool.false_eq_true, if_false]
    by_cases hlt : (po.expect_func_align : Int) * 8 < ea - po.baseaddr
    · rw [if_pos hlt, if_pos hlt]
      simp only [hts, Bool.false_eq_true, if_false]
      rw [dictGet_dictSet_self]
    · rw [if_neg hlt, if_neg hlt]
  have hval : (ea - po.baseaddr) - ((po.baseaddr : Int) - po.baseaddr) =
      ea - po.baseaddr := by ring
  rw [hval] at hstep
  constructor
  · rw [hstep]
    by_cases hlt : (po.expect_func_align : Int) * 8 < ea - po.baseaddr
    · rw [if_pos hlt]
      constructor
      · intro h; cases h
      · intro h; omega
    · rw [if_neg hlt]
      constructor
      · intro _; omega
      · intro _; rfl
  · intro hlt
    rw [hstep, if_pos hlt]

/-- Options with an anchor override comfortably past the minimum span. -/
def c5po2 : Po :=
  { baseaddr := 4096, addrspacelen := 100, expect_func_align := 2,
    expect_sect_align := 16, section_addr := [(".ARM.exidx", 4096 + 24)],
    section_size := [], dry_run := false }

/-- Witness for the amended C5 at a 24-byte span. -/
theorem armfw_bin2elf_settle_sect_text_amended_witness :
    (armfw_bin2elf_settle_sect_text c5po2 = .error () ↔
      (4096 + 24 : Int) - c5po2.baseaddr ≤ (c5po2.expect_func_align : Int) * 8) ∧
    ((c5po2.expect_func_align : Int) * 8 < (4096 + 24 : Int) - c5po2.baseaddr →
      armfw_bin2elf_settle_sect_text c5po2 =
        .ok { c5po2 with
          section_addr := dictSet c5po2.section_addr ".text" (c5po2.baseaddr : Int),
          section_size := dictSet c5po2.section_size ".text"
            ((4096 + 24 : Int) - c5po2.baseaddr) }) :=
  armfw_bin2elf_settle_sect_text_amended c5po2 (4096 + 24) rfl rfl rfl

/-! ## Claim C10: anchor override skips the scanners -/

/-- C10: with an explicit `.ARM.exidx` address override and no size
override, the settle step ignores the image entirely (both scanners are
skipped — the result does not depend on the file) and the section size is
set to the section-alignment constant. -/
theorem armfw_bin2elf_settle_sect_ARMexidx_override (po : Po)
    (file file' : List Nat)
    (hmem : dictMem ".ARM.exidx" po.section_addr = true)
    (hsz : dictMem ".ARM.exidx" po.section_size = false) :
    armfw_bin2elf_settle_sect_ARMexidx po file =
      .ok { po with
        section_size := dictSet po.section_size ".ARM.exidx" (po.expect_sect_align : Int) } ∧
    armfw_bin2elf_settle_sect_ARMexidx po file =
      armfw_bin2elf_settle_sect_ARMexidx po file' := by
  have h : ∀ f : List Nat, armfw_bin2elf_settle_sect_ARMexidx po f =
      .ok { po with
        section_size := dictSet po.section_size ".ARM.exidx" (po.expect_sect_align : Int) } := by
    intro f
    unfold armfw_bin2elf_settle_sect_ARMexidx
    simp only [hmem, if_true, hsz, Bool.false_eq_true, if_false]
  exact ⟨h file, (h file).trans (h file').symm⟩

/-- Options with an anchor address override and no size override. -/
def c10po : Po :=
  { baseaddr := 256, addrspacelen := 4096, expect_func_align := 2,
    expect_sect_align := 16, section_addr := [(".ARM.exidx", 512)],
    section_size := [], dry_run := false }

/-- Witness for C10 on two different images. -/
theorem armfw_bin2elf_settle_sect_ARMexidx_override_witness :
    armfw_bin2elf_settle_sect_ARMexidx c10po [1, 2, 3] =
      .ok { c10po with
        section_size := dictSet c10po.section_size ".ARM.exidx" (c10po.expect_sect_align : Int) } ∧
    armfw_bin2elf_settle_sect_ARMexidx c10po [1, 2, 3] =
      armfw_bin2elf_settle_sect_ARMexidx c10po [9, 9] :=
  armfw_bin2elf_settle_sect_ARMexidx_override c10po [1, 2, 3] [9, 9] rfl rfl

/-! ## Claim C2: the padding check requires a *zero* fill -/

/-- Image with one proper entry at offset 16 (a CANTUNWIND record whose
first word resolves 14 bytes back into the code region) followed by a
uniform `0xFF` fill up to the next 16-byte boundary. -/
def file32 : List Nat :=
  List.replicate 16 0 ++ [0xF2, 0xFF, 0xFF, 0x7F, 0x01, 0, 0, 0]
    ++ List.replicate 8 0xFF

/-- C2 counterexample: at candidate position 16 of `file32` (base address
256, `func_align = 2`, `sect_align = 16`) the run is nonempty (one valid
entry ending at unaligned offset 24) and the padding span 24..31 is a
uniform fill of the single byte value `0xFF` — yet the scanner discards
the match and reports no section at all, refuting "accepts … if and only
if the bytes … are a uniform fill of a single byte value". -/
theorem exidx_padding_uniform_nonzero_cex :
    exidx_entry_run (file32.length + 1) 16 file32 256 2 16 16 0 =
      .ok (1, 24, false) ∧
    (24 : Nat) % 16 ≠ 0 ∧
    (file32.drop 24).take (16 - 24 % 16) =
      [0xFF, 0xFF, 0xFF, 0xFF, 0xFF, 0xFF, 0xFF, 0xFF] ∧
    armfw_detect_sect_ARMexidx 16 file32 256 0 2 16 = .ok ((-1, 0), false) :=
  ⟨rfl, by decide, rfl, rfl⟩

/-- C2 amended: a nonempty run whose end is not on a section-alignment
boundary survives the padding check *iff* every byte between the run end
and the next boundary is `0x00` (a uniform fill of the zero byte); any
other padding — including a uniform fill of a nonzero byte — zeroes the
entry count, discarding the match. -/
theorem exidx_candidate_uniform_zero (E : Nat) (file : List Nat)
    (base fa sa pos cnt epos : Nat)
    (hrun : exidx_entry_run (file.length + 1) E file base fa pos pos 0 =
      .ok (cnt, epos, false))
    (hcnt : 0 < cnt) (hsa : 0 < sa) (hal : epos % sa ≠ 0)
    (hfit : epos + (sa - epos % sa) ≤ file.length) :
    exidx_candidate E file base fa sa pos =
      .ok ((if ((file.drop epos).take (sa - epos % sa)).all (fun b => b = 0)
            then cnt else 0), epos, false) := by
  have hr : epos % sa < sa := Nat.mod_lt _ hsa
  have hlenP : ((file.drop epos).take (sa - epos % sa)).length =
      min (sa - epos % sa) (file.length - epos) := by
    simp [List.length_take, List.length_drop]
  have hne : (file.drop epos).take (sa - epos % sa) ≠ [] := by
    intro h
    rw [h] at hlenP
    simp only [List.length_nil] at hlenP
    omega
  unfold exidx_candidate
  rw [hrun]
  simp only [Bool.false_eq_true, if_false]
  rw [if_pos ⟨hcnt, Nat.pos_of_ne_zero hal⟩, if_neg hne]
  set padding := (file.drop epos).take (sa - epos % sa) with hpad
  have hmem : padding.headD 0 ∈ padding := by
    cases hpv : padding with
    | nil => exact absurd hpv hne
    | cons a as => simp
  by_cases hz : (padding.all (fun b => b = 0)) = true
  · have hp0 : padding.headD 0 = 0 := by
      simpa using List.all_eq_true.mp hz _ hmem
    rw [hp0]
    rw [if_neg (by push_neg; exact ⟨rfl, hz⟩)]
    rw [if_pos hz]
  · rw [if_neg hz]
    rw [if_pos ?_]
    by_cases hp0 : padding.headD 0 = 0
    · right
      rw [hp0]
      exact hz
    · left; exact hp0

/-- Image with proper single-entry runs at candidate positions 16 and 32
(each followed by zero padding to the next boundary), and end-of-input at
the candidate position 48. -/
def file48 : List Nat :=
  List.replicate 16 0 ++ [0xF2, 0xFF, 0xFF, 0x7F, 0x01, 0, 0, 0]
    ++ List.replicate 8 0 ++ [0xE2, 0xFF, 0xFF, 0x7F, 0x01, 0, 0, 0]
    ++ List.replicate 8 0

/-- Witness for the amended C2 at candidate 16 of `file48` (zero-filled
padding span 24..31). -/
theorem exidx_candidate_uniform_zero_witness :
    exidx_candidate 16 file48 256 2 16 16 =
      .ok ((if ((file48.drop 24).take (16 - 24 % 16)).all (fun b => b = 0)
            then 1 else 0), 24, false) :=
  exidx_candidate_uniform_zero 16 file48 256 2 16 16 1 24 rfl (by decide)
    (by decide) (by decide) (by decide)

/-! ## Claim C1: the scanner prefers the last accepted candidate -/

/-- The accumulator loop of the scanner computes exactly the length and
last element of the accepted-candidates list. -/
theorem exidx_scan_eq_accepted_list (E : Nat) (file : List Nat) (base fa sa : Nat) :
    ∀ (fuel pos : Nat) (mp : Int) (me mc : Nat) (mp' : Int) (me' mc' : Nat),
      exidx_scan fuel E file base fa sa pos mp me mc = .ok (mp', me', mc') →
      ∃ l, exidx_accepted_list fuel E file base fa sa pos = .ok l ∧
        mc' = mc + l.length ∧
        (match l.getLast? with
         | none => mp' = mp ∧ me' = me
         | some p => mp' = (p.1 : Int) ∧ me' = p.2) := by
  intro fuel
  induction fuel with
  | zero =>
    intro pos mp me mc mp' me' mc' h
    simp [exidx_scan] at h
  | succ fuel ih =>
    intro pos mp me mc mp' me' mc' h
    have hstep : exidx_scan (fuel + 1) E file base fa sa pos mp me mc =
        (match exidx_candidate E file base fa sa pos with
         | .error u => .error u
         | .ok (cnt, _epos, eof) =>
           if eof then .ok (mp, me, mc)
           else if 0 < cnt then
             exidx_scan fuel E file base fa sa (pos + sa) (pos : Int) cnt (mc + 1)
           else exidx_scan fuel E file base fa sa (pos + sa) mp me mc) := rfl
    have hstepL : exidx_accepted_list (fuel + 1) E file base fa sa pos =
        (match exidx_candidate E file base fa sa pos with
         | .error u => .error u
         | .ok (cnt, _epos, eof) =>
           if eof then .ok []
           else if 0 < cnt then
             (exidx_accepted_list fuel E file base fa sa (pos + sa)).map
               (fun l => (pos, cnt) :: l)
           else exidx_accepted_list fuel E file base fa sa (pos + sa)) := rfl
    rw [hstep] at h
    rw [hstepL]
    cases hc : exidx_candidate E file base fa sa pos with
    | error u => rw [hc] at h; cases h
    | ok t =>
      obtain ⟨cnt, epos, eof⟩ := t
      rw [hc] at h
      cases eof with
      | true =>
        simp only [if_true] at h
        refine ⟨[], by simp, ?_, ?_⟩
        · simp only [List.length_nil]
          injection h with h1
          injection h1 with h1 h2
          injection h2 with h2 h3
          omega
        · injection h with h1
          injection h1 with h1 h2
          injection h2 with h2 h3
          simp [List.getLast?]
          exact ⟨h1.symm, h2.symm⟩
      | false =>
        simp only [Bool.false_eq_true, if_false] at h ⊢
        by_cases hcnt : 0 < cnt
        · rw [if_pos hcnt] at h ⊢
          obtain ⟨l', hl', hmc, hmatch⟩ := ih (pos + sa) (pos : Int) cnt (mc + 1)
            mp' me' mc' h
          refine ⟨(pos, cnt) :: l', ?_, ?_, ?_⟩
          · rw [hl']; rfl
          · simp only [List.length_cons]; omega
          · cases l' with
            | nil =>
              simp only [List.getLast?_singleton]
              simpa using hmatch
            | cons b t' =>
              rw [List.getLast?_cons_cons]
              exact hmatch
        · rw [if_neg hcnt] at h ⊢
          exact ih (pos + sa) mp me mc mp' me' mc' h

/-- Positions recorded in the accepted-candidates list are at least the
scan position and strictly increase along the list. -/
theorem exidx_accepted_list_bounds (E : Nat) (file : List Nat) (base fa sa : Nat)
    (hsa : 0 < sa) :
    ∀ (fuel pos : Nat) (l : List (Nat × Nat)),
      exidx_accepted_list fuel E file base fa sa pos = .ok l →
      (∀ p ∈ l, pos ≤ p.1) ∧ l.Pairwise (fun p q => p.1 < q.1) := by
  intro fuel
  induction fuel with
  | zero =>
    intro pos l h
    simp [exidx_accepted_list] at h
  | succ fuel ih =>
    intro pos l h
    have hstepL : exidx_accepted_list (fuel + 1) E file base fa sa pos =
        (match exidx_candidate E file base fa sa pos with
         | .error u => .error u
         | .ok (cnt, _epos, eof) =>
           if eof then .ok []
           else if 0 < cnt then
             (exidx_accepted_list fuel E file base fa sa (pos + sa)).map
               (fun l => (pos, cnt) :: l)
           else exidx_accepted_list fuel E file base fa sa (pos + sa)) := rfl
    rw [hstepL] at h
    cases hc : exidx_candidate E file base fa sa pos with
    | error u => rw [hc] at h; cases h
    | ok t =>
      obtain ⟨cnt, epos, eof⟩ := t
      rw [hc] at h
      cases eof with
      | true =>
        simp only [if_true] at h
        injection h with h1
        subst h1
        exact ⟨by simp, List.Pairwise.nil⟩
      | false =>
        simp only [Bool.false_eq_true, if_false] at h
        by_cases hcnt : 0 < cnt
        · rw [if_pos hcnt] at h
          cases hl' : exidx_accepted_list fuel E file base fa sa (pos + sa) with
          | error u => rw [hl'] at h; cases h
          | ok l' =>
            rw [hl'] at h
            injection h with h1
            subst h1
            obtain ⟨hge, hpw⟩ := ih (pos + sa) l' hl'
            constructor
            · intro p hp
              rcases List.mem_cons.mp hp with rfl | hp
              · exact le_refl _
              · exact le_trans (by omega) (hge p hp)
            · exact List.Pairwise.cons
                (fun q hq => by have := hge q hq; simp only []; omega) hpw
        · rw [if_neg hcnt] at h
          obtain ⟨hge, hpw⟩ := ih (pos + sa) l h
          exact ⟨fun p hp => le_trans (by omega) (hge p hp), hpw⟩

/-- C1: whenever `armfw_detect_sect_ARMexidx` returns, its result is
governed by the accepted-candidates list (which the scan builds by running
every candidate position until end-of-input): the ambiguity warning is
emitted exactly when more than one candidate was accepted, the returned
position and byte length are those of the **last** accepted candidate
(entry count times the 8-byte record size), and with more than one match
the returned position differs from the first match. -/
theorem armfw_detect_sect_ARMexidx_prefers_last (E : Nat) (file : List Nat)
    (base start fa sa : Nat) (mp : Int) (ml : Nat) (warn : Bool)
    (l : List (Nat × Nat))
    (hdet : armfw_detect_sect_ARMexidx E file base start fa sa =
      .ok ((mp, ml), warn))
    (hlist : exidx_accepted_list (file.length + 1) E file base fa sa start =
      .ok l) :
    (warn = true ↔ 1 < l.length) ∧
    (l ≠ [] → mp = ((l.getLastD (0, 0)).1 : Int) ∧ ml = (l.getLastD (0, 0)).2 * 8) ∧
    (1 < l.length → l.head? ≠ l.getLast?) := by
  unfold armfw_detect_sect_ARMexidx at hdet
  by_cases hsa8 : 8 ≤ sa
  · rw [if_pos hsa8] at hdet
    cases hscan : exidx_scan (file.length + 1) E file base fa sa start (-1) 0 0 with
    | error u => rw [hscan] at hdet; cases hdet
    | ok t =>
      obtain ⟨mp0, me0, mc⟩ := t
      rw [hscan] at hdet
      obtain ⟨l0, hl0, hmc, hmatch⟩ :=
        exidx_scan_eq_accepted_list E file base fa sa _ start (-1) 0 0
          mp0 me0 mc hscan
      rw [hlist] at hl0
      injection hl0 with hl0
      subst hl0
      have hdet2 : (if mc < 1 then
            (Except.ok ((-1, 0), decide (1 < mc)) : Except Unit ((Int × Nat) × Bool))
          else .ok ((mp0, me0 * 8), decide (1 < mc))) = .ok ((mp, ml), warn) := hdet
      clear hdet
      by_cases hmc1 : mc < 1
      · rw [if_pos hmc1] at hdet2
        injection hdet2 with h1
        injection h1 with h1 h2
        injection h1 with h1a h1b
        have hlen : l.length = 0 := by omega
        have hnil : l = [] := List.length_eq_zero.mp hlen
        subst hnil
        refine ⟨?_, ?_, ?_⟩
        · rw [← h2]
          simp
          omega
        · intro h; exact absurd rfl h
        · intro h; simp at h
      · rw [if_neg hmc1] at hdet2
        injection hdet2 with h1
        injection h1 with h1 h2
        injection h1 with h1a h1b
        have hnil : l ≠ [] := by
          intro h
          subst h
          simp only [List.length_nil] at hmc
          omega
        obtain ⟨q, hq⟩ := Option.isSome_iff_exists.mp
          (List.getLast?_isSome.mpr hnil)
        rw [hq] at hmatch
        refine ⟨?_, ?_, ?_⟩
        · rw [← h2]
          simp only [decide_eq_true_eq]
          omega
        · intro _
          have hm : mp0 = (q.1 : Int) ∧ me0 = q.2 := hmatch
          rw [List.getLastD_eq_getLast?, hq]
          simp only [Option.getD_some]
          exact ⟨by rw [← h1a, hm.1], by rw [← h1b, hm.2]⟩
        · intro hlen
          obtain ⟨a, t, rfl⟩ := List.exists_cons_of_ne_nil hnil
          have ht : t ≠ [] := by
            intro h
            subst h
            simp at hlen
          obtain ⟨b, t', rfl⟩ := List.exists_cons_of_ne_nil ht
          have hpw := (exidx_accepted_list_bounds E file base fa sa
            (by omega) _ start _ hlist).2
          have hq' : (b :: t').getLast? = some q := by
            rw [← List.getLast?_cons_cons (a := a)]
            exact hq
          have hqmem : q ∈ b :: t' := List.mem_of_getLast?_eq_some hq'
          have halt : a.1 < q.1 :=
            (List.pairwise_cons.mp hpw).1 q hqmem
          rw [List.getLast?_cons_cons, hq']
          simp only [List.head?_cons, ne_eq, Option.some.injEq]
          intro h
          rw [h] at halt
          omega
  · rw [if_neg hsa8] at hdet
    cases hdet

/-- Witness for C1 on `file48`: candidates 16 and 32 are both accepted,
the scanner returns the later one (position 32, one 8-byte entry) and
warns. -/
theorem armfw_detect_sect_ARMexidx_prefers_last_witness :
    ((true : Bool) = true ↔ 1 < [(16, 1), (32, 1)].length) ∧
    (([(16, 1), (32, 1)] : List (Nat × Nat)) ≠ [] →
      (32 : Int) = (([(16, 1), (32, 1)].getLastD ((0 : Nat), (0 : Nat))).1 : Int) ∧
      8 = ([(16, 1), (32, 1)].getLastD ((0 : Nat), (0 : Nat))).2 * 8) ∧
    (1 < [(16, 1), (32, 1)].length →
      ([(16, 1), (32, 1)] : List (Nat × Nat)).head? ≠ [(16, 1), (32, 1)].getLast?) :=
  armfw_detect_sect_ARMexidx_prefers_last 16 file48 256 0 2 16 32 8 true
    [(16, 1), (32, 1)] rfl rfl

/-! ## Claim C9: sections beyond the address-space limit -/

theorem sortedInsert_mem (x y : Int) (l : List Int) :
    y ∈ sortedInsert x l ↔ y = x ∨ y ∈ l := by
  induction l with
  | nil => simp [sortedInsert]
  | cons z zs ih =>
    unfold sortedInsert
    by_cases h1 : x < z
    · simp [h1]
    · rw [if_neg h1]
      by_cases h2 : x = z
      · subst h2
        rw [if_pos rfl]
        simp only [List.mem_cons]
        constructor
        · intro h; exact Or.inr h
        · rintro (rfl | h)
          · exact Or.inl rfl
          · exact h
      · rw [if_neg h2]
        simp only [List.mem_cons, ih]
        tauto

theorem sortedInsert_pairwise (x : Int) (l : List Int)
    (h : l.Pairwise (· < ·)) : (sortedInsert x l).Pairwise (· < ·) := by
  induction l with
  | nil => simp [sortedInsert]
  | cons z zs ih =>
    rw [List.pairwise_cons] at h
    unfold sortedInsert
    by_cases h1 : x < z
    · rw [if_pos h1, List.pairwise_cons]
      refine ⟨?_, List.pairwise_cons.mpr h⟩
      intro w hw
      rcases List.mem_cons.mp hw with rfl | hw
      · exact h1
      · exact lt_trans h1 (h.1 w hw)
    · rw [if_neg h1]
      by_cases h2 : x = z
      · rw [if_pos h2, List.pairwise_cons]
        exact h
      · rw [if_neg h2, List.pairwise_cons]
        have hzx : z < x := by omega
        refine ⟨?_, ih h.2⟩
        intro w hw
        rcases (sortedInsert_mem x w zs).mp hw with rfl | hw
        · exact hzx
        · exact h.1 w hw

theorem sortedDedup_mem (l : List Int) (y : Int) :
    y ∈ sortedDedup l ↔ y ∈ l := by
  induction l with
  | nil => simp [sortedDedup]
  | cons x xs ih =>
    have : sortedDedup (x :: xs) = sortedInsert x (sortedDedup xs) := rfl
    rw [this, sortedInsert_mem, ih]
    simp

theorem sortedDedup_pairwise (l : List Int) :
    (sortedDedup l).Pairwise (· < ·) := by
  induction l with
  | nil => exact List.Pairwise.nil
  | cons x xs ih => exact sortedInsert_pairwise x _ ih

/-- Any element already accumulated survives an append-only fold. -/
theorem foldl_if_append_mono (g : List String → (String × Int) → Bool)
    (items : List (String × Int)) :
    ∀ (acc : List String) (x : String), x ∈ acc →
      x ∈ items.foldl (fun ac p => if g ac p then ac ++ [p.1] else ac) acc := by
  induction items with
  | nil => intro acc x hx; exact hx
  | cons p rest ih =>
    intro acc x hx
    simp only [List.foldl_cons]
    apply ih
    by_cases hg : g acc p
    · rw [if_pos hg]; exact List.mem_append_left _ hx
    · rw [if_neg hg]; exact hx

/-- Any element produced by an append-only fold is either initial or the
key of some item. -/
theorem foldl_if_append_subset (g : List String → (String × Int) → Bool)
    (items : List (String × Int)) :
    ∀ (acc : List String) (x : String),
      x ∈ items.foldl (fun ac p => if g ac p then ac ++ [p.1] else ac) acc →
      x ∈ acc ∨ ∃ pv, pv ∈ items ∧ pv.1 = x := by
  induction items with
  | nil => intro acc x hx; exact Or.inl hx
  | cons p rest ih =>
    intro acc x hx
    simp only [List.foldl_cons] at hx
    rcases ih _ x hx with hx' | ⟨pv, hpv, rfl⟩
    · by_cases hg : g acc p
      · rw [if_pos hg] at hx'
        rcases List.mem_append.mp hx' with h | h
        · exact Or.inl h
        · exact Or.inr ⟨p, List.mem_cons_self _ _, (List.mem_singleton.mp h).symm⟩
      · rw [if_neg hg] at hx'
        exact Or.inl hx'
    · exact Or.inr ⟨pv, List.mem_cons_of_mem _ hpv, rfl⟩

/-- Membership after the second per-address pass of the ordering loop:
exactly the names whose address is the processed value get appended. -/
theorem order_fold2_mem (addrs : List (String × Int)) (a : Int) :
    ∀ (acc : List String) (x : String),
      x ∈ addrs.foldl
        (fun ac p => if p.2 == a && !(ac.contains p.1) then ac ++ [p.1] else ac)
        acc ↔ x ∈ acc ∨ (x, a) ∈ addrs := by
  induction addrs with
  | nil => intro acc x; simp
  | cons p rest ih =>
    intro acc x
    simp only [List.foldl_cons]
    rw [ih]
    have hstep : x ∈ (if p.2 == a && !(acc.contains p.1) then acc ++ [p.1] else acc) ↔
        x ∈ acc ∨ (p.2 = a ∧ p.1 ∉ acc ∧ x = p.1) := by
      by_cases hc : (p.2 == a && !(acc.contains p.1)) = true
      · rw [if_pos hc]
        rw [Bool.and_eq_true, beq_iff_eq, Bool.not_eq_true'] at hc
        have hnm : p.1 ∉ acc := by
          intro hm
          rw [List.contains, List.elem_eq_mem, decide_eq_false_iff_not] at hc
          exact hc.2 hm
        simp only [List.mem_append, List.mem_singleton]
        constructor
        · rintro (h | rfl)
          · exact Or.inl h
          · exact Or.inr ⟨hc.1, hnm, rfl⟩
        · rintro (h | ⟨_, _, rfl⟩)
          · exact Or.inl h
          · exact Or.inr rfl
      · rw [if_neg hc]
        rw [Bool.and_eq_true, beq_iff_eq, Bool.not_eq_true'] at hc
        push_neg at hc
        constructor
        · exact Or.inl
        · rintro (h | ⟨hpa, hnm, rfl⟩)
          · exact h
          · exact absurd (hc hpa) (by
              rw [List.contains, List.elem_eq_mem]
              simpa using hnm)
    rw [hstep]
    simp only [List.mem_cons]
    constructor
    · rintro ((h | ⟨hpa, _, rfl⟩) | h)
      · exact Or.inl h
      · exact Or.inr (Or.inl (by rw [← hpa]))
      · exact Or.inr (Or.inr h)
    · rintro (h | (h | h))
      · exact Or.inl (Or.inl h)
      · by_cases hm : x ∈ acc
        · exact Or.inl (Or.inl hm)
        · obtain rfl : p = (x, a) := h.symm
          exact Or.inl (Or.inr ⟨rfl, hm, rfl⟩)
      · exact Or.inr h

/-- The first per-address pass (zero-sized sections) only appends names
that carry the processed address. -/
theorem order_fold1_subset (addrs sizes : List (String × Int)) (a : Int) :
    ∀ (acc : List String) (x : String),
      x ∈ addrs.foldl
        (fun ac p => if p.2 == a &&
            (match dictGet sizes p.1 with
             | some s => decide (s < 1)
             | none => false) then ac ++ [p.1] else ac) acc →
      x ∈ acc ∨ (x, a) ∈ addrs := by
  induction addrs with
  | nil => intro acc x hx; exact Or.inl hx
  | cons p rest ih =>
    intro acc x hx
    simp only [List.foldl_cons] at hx
    rcases ih _ x hx with hx' | h
    · by_cases hc : (p.2 == a &&
          (match dictGet sizes p.1 with
           | some s => decide (s < 1)
           | none => false)) = true
      · rw [if_pos hc] at hx'
        rcases List.mem_append.mp hx' with h | h
        · exact Or.inl h
        · rw [Bool.and_eq_true, beq_iff_eq] at hc
          obtain rfl := List.mem_singleton.mp h
          right
          rw [← hc.1]
          exact List.mem_cons_self _ _
      · rw [if_neg hc] at hx'
        exact Or.inl hx'
    · exact Or.inr (List.mem_cons_of_mem _ h)

/-- Membership after one full round (both passes) of the ordering loop. -/
theorem order_round_mem (addrs sizes : List (String × Int)) (a : Int)
    (acc : List String) (x : String) :
    x ∈ (addrs.foldl
        (fun ac p => if p.2 == a && !(ac.contains p.1) then ac ++ [p.1] else ac)
        (addrs.foldl
          (fun ac p => if p.2 == a &&
              (match dictGet sizes p.1 with
               | some s => decide (s < 1)
               | none => false) then ac ++ [p.1] else ac) acc)) ↔
      x ∈ acc ∨ (x, a) ∈ addrs := by
  rw [order_fold2_mem]
  constructor
  · rintro (h | h)
    · exact order_fold1_subset addrs sizes a acc x h
    · exact Or.inr h
  · rintro (h | h)
    · exact Or.inl (foldl_if_append_mono _ addrs acc x h)
    · exact Or.inr h

/-- Membership in the final section order: a name is listed exactly when
one of the scanned (sorted, distinct, within-limit) address values is its
address. -/
theorem orderGo_mem (addrs sizes : List (String × Int)) (limit : Int) :
    ∀ (vl : List Int) (acc : List String) (x : String),
      vl.Pairwise (· < ·) →
      (x ∈ (orderGo addrs sizes limit vl acc).1 ↔
        x ∈ acc ∨ ∃ b, b ∈ vl ∧ b ≤ limit ∧ (x, b) ∈ addrs) := by
  intro vl
  induction vl with
  | nil =>
    intro acc x _
    simp [orderGo]
  | cons a rest ih =>
    intro acc x hpw
    rw [List.pairwise_cons] at hpw
    have hstep : orderGo addrs sizes limit (a :: rest) acc =
        (if limit < a then (acc, true)
         else orderGo addrs sizes limit rest
          (addrs.foldl
            (fun ac p => if p.2 == a && !(ac.contains p.1) then ac ++ [p.1] else ac)
            (addrs.foldl
              (fun ac p => if p.2 == a &&
                  (match dictGet sizes p.1 with
                   | some s => decide (s < 1)
                   | none => false) then ac ++ [p.1] else ac) acc))) := rfl
    rw [hstep]
    by_cases hl : limit < a
    · rw [if_pos hl]
      constructor
      · intro h; exact Or.inl h
      · rintro (h | ⟨b, hbv, hbl, _⟩)
        · exact h
        · exfalso
          rcases List.mem_cons.mp hbv with rfl | hbv
          · omega
          · have := hpw.1 b hbv
            omega
    · rw [if_neg hl]
      rw [ih _ x hpw.2]
      rw [order_round_mem]
      constructor
      · rintro ((h | h) | ⟨b, hbv, hbl, hbm⟩)
        · exact Or.inl h
        · exact Or.inr ⟨a, List.mem_cons_self _ _, by omega, h⟩
        · exact Or.inr ⟨b, List.mem_cons_of_mem _ hbv, hbl, hbm⟩
      · rintro (h | ⟨b, hbv, hbl, hbm⟩)
        · exact Or.inl (Or.inl h)
        · rcases List.mem_cons.mp hbv with rfl | hbv
          · exact Or.inl (Or.inr hbm)
          · exact Or.inr ⟨b, hbv, hbl, hbm⟩

/-- The beyond-limit warning fires exactly when some scanned address value
exceeds the limit. -/
theorem orderGo_warn (addrs sizes : List (String × Int)) (limit : Int) :
    ∀ (vl : List Int) (acc : List String),
      ((orderGo addrs sizes limit vl acc).2 = true ↔ ∃ b ∈ vl, limit < b) := by
  intro vl
  induction vl with
  | nil => intro acc; simp [orderGo]
  | cons a rest ih =>
    intro acc
    have hstep : orderGo addrs sizes limit (a :: rest) acc =
        (if limit < a then (acc, true)
         else orderGo addrs sizes limit rest
          (addrs.foldl
            (fun ac p => if p.2 == a && !(ac.contains p.1) then ac ++ [p.1] else ac)
            (addrs.foldl
              (fun ac p => if p.2 == a &&
                  (match dictGet sizes p.1 with
                   | some s => decide (s < 1)
                   | none => false) then ac ++ [p.1] else ac) acc))) := rfl
    rw [hstep]
    by_cases hl : limit < a
    · rw [if_pos hl]
      constructor
      · intro _; exact ⟨a, List.mem_cons_self _ _, hl⟩
      · intro _; rfl
    · rw [if_neg hl]
      rw [ih]
      constructor
      · rintro ⟨b, hbv, hbl⟩
        exact ⟨b, List.mem_cons_of_mem _ hbv, hbl⟩
      · rintro ⟨b, hbv, hbl⟩
        rcases List.mem_cons.mp hbv with rfl | hbv
        · omega
        · exact ⟨b, hbv, hbl⟩

/-- C9: a section whose resolved address exceeds the address-space limit —
and, the addresses being processed in ascending order, every section at a
strictly higher address — is omitted from the section order; the ordering
step is total (it cannot abort) and only raises the warning flag, exactly
when some section lies beyond the limit. -/
theorem armfw_bin2elf_get_sections_order_limit (po : Po) (limit : Int)
    (name : String) (a : Int)
    (hnd : (po.section_addr.map Prod.fst).Nodup)
    (hmem : (name, a) ∈ po.section_addr) :
    (name ∈ (armfw_bin2elf_get_sections_order po limit).1 ↔ a ≤ limit) ∧
    ((armfw_bin2elf_get_sections_order po limit).2 =
      po.section_addr.any (fun p => decide (limit < p.2))) := by
  unfold armfw_bin2elf_get_sections_order
  constructor
  · rw [orderGo_mem po.section_addr po.section_size limit _ [] name
      (sortedDedup_pairwise _)]
    simp only [List.not_mem_nil, false_or]
    constructor
    · rintro ⟨b, _, hbl, hbm⟩
      have : b = a := keys_nodup_val_eq hnd hbm hmem
      omega
    · intro hal
      refine ⟨a, ?_, hal, hmem⟩
      rw [sortedDedup_mem]
      exact List.mem_map.mpr ⟨(name, a), hmem, rfl⟩
  · rw [Bool.eq_iff_iff]
    rw [orderGo_warn]
    rw [List.any_eq_true]
    constructor
    · rintro ⟨b, hbv, hbl⟩
      rw [sortedDedup_mem] at hbv
      obtain ⟨p, hp, rfl⟩ := List.mem_map.mp hbv
      exact ⟨p, hp, by simpa using hbl⟩
    · rintro ⟨p, hp, hpl⟩
      refine ⟨p.2, ?_, by simpa using hpl⟩
      rw [sortedDedup_mem]
      exact List.mem_map.mpr ⟨p, hp, rfl⟩

/-- Options for the C9 witness: one section beyond the 32-bit limit. -/
def c9po : Po :=
  { baseaddr := 0, addrspacelen := 100, expect_func_align := 2,
    expect_sect_align := 16,
    section_addr := [("a", 10), ("b", 2 ^ 32 + 5), ("c", 10)],
    section_size := [("a", 0)], dry_run := false }

/-- Witness for C9: the section at `2^32 + 5` is omitted and the warning
fires. -/
theorem armfw_bin2elf_get_sections_order_limit_witness :
    ("b" ∈ (armfw_bin2elf_get_sections_order c9po (2 ^ 32 - 1)).1 ↔
      (2 ^ 32 + 5 : Int) ≤ 2 ^ 32 - 1) ∧
    ((armfw_bin2elf_get_sections_order c9po (2 ^ 32 - 1)).2 =
      c9po.section_addr.any (fun p => decide ((2 ^ 32 - 1 : Int) < p.2))) :=
  armfw_bin2elf_get_sections_order_limit c9po (2 ^ 32 - 1) "b" (2 ^ 32 + 5)
    (by decide) (by decide)

/-! ## Claim C6: the size back-fill pass -/

/-- The `sectaddr_next` value seen by each element of the (reversed)
processing list: the initial end-of-address-space bound for the first,
then the address of the previously processed (higher) section. -/
def nextsOf (addrs : List (String × Int)) : List String → Int → List Int
  | [], _ => []
  | n :: rest, next => next :: nextsOf addrs rest ((dictGet addrs n).getD 0)

/-- The back-fill loop does not touch sizes of sections outside its list. -/
theorem sizes_go_other (E : Nat) (limit : Int) (addrs : List (String × Int)) :
    ∀ (revnames : List String) (next : Int) (sizes : List (String × Int))
      (warns0 : List String) (res : List (String × Int) × List String),
      sizes_go E limit addrs revnames next sizes warns0 = .ok res →
      ∀ m, m ∉ revnames → dictGet res.1 m = dictGet sizes m := by
  intro revnames
  induction revnames with
  | nil =>
    intro next sizes warns0 res h m _
    injection h with h
    rw [← h]
  | cons n0 rest ih =>
    intro next sizes warns0 res h m hm
    have hmn : m ≠ n0 := fun he => hm (he ▸ List.mem_cons_self _ _)
    have hmr : m ∉ rest := fun he => hm (List.mem_cons_of_mem _ he)
    rw [sizes_go] at h
    split at h
    · cases h
    · split at h
      · cases h
      · split at h
        · cases h
        · split at h
          · split at h
            · rw [ih _ _ _ _ h m hmr, dictGet_dictSet_other _ _ _ _ hmn]
            · rw [ih _ _ _ _ h m hmr]
          · rw [ih _ _ _ _ h m hmr, dictGet_dictSet_other _ _ _ _ hmn]

/-- Warnings produced by the back-fill loop extend the incoming list and
only name sections of the processed list. -/
theorem sizes_go_warns (E : Nat) (limit : Int) (addrs : List (String × Int)) :
    ∀ (revnames : List String) (next : Int) (sizes : List (String × Int))
      (warns0 : List String) (res : List (String × Int) × List String),
      sizes_go E limit addrs revnames next sizes warns0 = .ok res →
      ∃ extra, res.2 = warns0 ++ extra ∧ ∀ m ∈ extra, m ∈ revnames := by
  intro revnames
  induction revnames with
  | nil =>
    intro next sizes warns0 res h
    injection h with h
    exact ⟨[], by rw [← h]; simp, by simp⟩
  | cons n0 rest ih =>
    intro next sizes warns0 res h
    rw [sizes_go] at h
    split at h
    · cases h
    · split at h
      · cases h
      · split at h
        · cases h
        · split at h
          · split at h
            · obtain ⟨extra, he, hsub⟩ := ih _ _ _ _ h
              refine ⟨n0 :: extra, by rw [he]; simp, ?_⟩
              intro m hm
              rcases List.mem_cons.mp hm with rfl | hm
              · exact List.mem_cons_self _ _
              · exact List.mem_cons_of_mem _ (hsub m hm)
            · obtain ⟨extra, he, hsub⟩ := ih _ _ _ _ h
              exact ⟨extra, he, fun m hm => List.mem_cons_of_mem _ (hsub m hm)⟩
          · obtain ⟨extra, he, hsub⟩ := ih _ _ _ _ h
            exact ⟨extra, he, fun m hm => List.mem_cons_of_mem _ (hsub m hm)⟩

/-- The clamped delta in closed form: the space budget is the distance
from the section address to `sectaddr_next` capped at `limit + 1 - E`. -/
theorem clampDelta_eq (E : Nat) (limit a next : Int) :
    clampDelta E limit a next = min next (limit + 1 - E) - a := by
  unfold clampDelta
  have hs : a + (next - a) = next := by ring
  rw [hs]
  split <;> omega

/-- Per-section characterisation of the back-fill loop: every processed
section gets a nonnegative budget `min next (limit + 1 - E) - addr`
(where `next` is the matching entry of `nextsOf`), a missing size becomes
exactly the budget, an explicit size is clamped to the budget, and the
warning list records exactly the sections whose explicit size exceeded
their budget. -/
theorem sizes_go_spec (E : Nat) (limit : Int) (addrs : List (String × Int)) :
    ∀ (revnames : List String) (next : Int) (sizes : List (String × Int))
      (warns0 : List String) (res : List (String × Int) × List String),
      sizes_go E limit addrs revnames next sizes warns0 = .ok res →
      revnames.Nodup →
      ∀ (n : String) (nx a : Int),
        (n, nx) ∈ revnames.zip (nextsOf addrs revnames next) →
        dictGet addrs n = some a →
        0 ≤ min nx (limit + 1 - E) - a ∧
        dictGet res.1 n = some (match dictGet sizes n with
          | none => min nx (limit + 1 - E) - a
          | some s => min s (min nx (limit + 1 - E) - a)) ∧
        (n ∈ res.2 ↔ n ∈ warns0 ∨
          ∃ s, dictGet sizes n = some s ∧ min nx (limit + 1 - E) - a < s) := by
  intro revnames
  induction revnames with
  | nil =>
    intro next sizes warns0 res h _ n nx a hz ha
    simp [List.zip_nil_left] at hz
  | cons n0 rest ih =>
    intro next sizes warns0 res h hnd n nx a hz ha
    rw [List.nodup_cons] at hnd
    rw [sizes_go] at h
    split at h
    · cases h
    case h_2 a0 heq0 =>
      split at h
      · cases h
      case isFalse hd1 =>
        split at h
        · cases h
        case isFalse hd2 =>
          have hzstep : (n0 :: rest).zip (nextsOf addrs (n0 :: rest) next) =
              (n0, next) :: rest.zip (nextsOf addrs rest ((dictGet addrs n0).getD 0)) := rfl
          rw [hzstep] at hz
          rw [heq0] at hz
          simp only [Option.getD_some] at hz
          rw [clampDelta_eq] at hd2
          rcases List.mem_cons.mp hz with hhead | htail
          · obtain ⟨rfl, rfl⟩ := Prod.mk.injEq _ _ _ _ |>.mp hhead
            have haa : a = a0 := by
              rw [ha] at heq0
              injection heq0
            subst haa
            refine ⟨by omega, ?_, ?_⟩
            · split at h
              case h_1 s heqs =>
                split at h
                case isTrue hcl =>
                  have hres : dictGet res.1 n = some (clampDelta E limit a nx) := by
                    rw [sizes_go_other E limit addrs _ _ _ _ _ h n (by exact hnd.1),
                      dictGet_dictSet_self]
                  rw [hres]
                  simp only [heqs]
                  rw [clampDelta_eq] at hcl ⊢
                  rw [min_eq_right (le_of_lt hcl)]
                case isFalse hcl =>
                  have hres : dictGet res.1 n = some s := by
                    rw [sizes_go_other E limit addrs _ _ _ _ _ h n (by exact hnd.1), heqs]
                  rw [hres]
                  simp only [heqs]
                  rw [clampDelta_eq] at hcl
                  rw [min_eq_left (by omega)]
              case h_2 heqs =>
                have hres : dictGet res.1 n = some (clampDelta E limit a nx) := by
                  rw [sizes_go_other E limit addrs _ _ _ _ _ h n (by exact hnd.1),
                    dictGet_dictSet_self]
                rw [hres]
                simp only [heqs]
                rw [clampDelta_eq]
            · split at h
              case h_1 s heqs =>
                rw [heqs]
                split at h
                case isTrue hcl =>
                  obtain ⟨extra, he, hsub⟩ := sizes_go_warns E limit addrs _ _ _ _ _ h
                  rw [clampDelta_eq] at hcl
                  constructor
                  · intro _
                    exact Or.inr ⟨s, rfl, hcl⟩
                  · intro _
                    rw [he]
                    exact List.mem_append_left _ (List.mem_append_right _
                      (List.mem_singleton.mpr rfl))
                case isFalse hcl =>
                  obtain ⟨extra, he, hsub⟩ := sizes_go_warns E limit addrs _ _ _ _ _ h
                  rw [clampDelta_eq] at hcl
                  rw [he]
                  constructor
                  · intro hm
                    rcases List.mem_append.mp hm with hm | hm
                    · exact Or.inl hm
                    · exact absurd (hsub _ hm) hnd.1
                  · rintro (hm | ⟨s', hs', hlt⟩)
                    · exact List.mem_append_left _ hm
                    · injection hs' with hs'
                      subst hs'
                      exact absurd hlt hcl
              case h_2 heqs =>
                rw [heqs]
                obtain ⟨extra, he, hsub⟩ := sizes_go_warns E limit addrs _ _ _ _ _ h
                rw [he]
                constructor
                · intro hm
                  rcases List.mem_append.mp hm with hm | hm
                  · exact Or.inl hm
                  · exact absurd (hsub _ hm) hnd.1
                · rintro (hm | ⟨s', hs', _⟩)
                  · exact List.mem_append_left _ hm
                  · cases hs'
          · have hnr : n ∈ rest := (List.of_mem_zip htail).1
            have hnn0 : n ≠ n0 := fun he => hnd.1 (he ▸ hnr)
            split at h
            case h_1 s heqs =>
              split at h
              case isTrue hcl =>
                have := ih _ _ _ _ h hnd.2 n nx a htail ha
                rw [dictGet_dictSet_other _ _ _ _ hnn0] at this
                refine ⟨this.1, this.2.1, ?_⟩
                rw [this.2.2]
                have : n ∈ warns0 ++ [n0] ↔ n ∈ warns0 := by
                  simp only [List.mem_append, List.mem_singleton]
                  constructor
                  · rintro (hm | rfl)
                    · exact hm
                    · exact absurd rfl hnn0
                  · exact Or.inl
                rw [this]
              case isFalse hcl =>
                exact ih _ _ _ _ h hnd.2 n nx a htail ha
            case h_2 heqs =>
              have := ih _ _ _ _ h hnd.2 n nx a htail ha
              rw [dictGet_dictSet_other _ _ _ _ hnn0] at this
              exact this

/-- C6 counterexample configuration: one section at address 0, no explicit
size, base 0, `addrspacelen = 100`. -/
def c6po : Po :=
  { baseaddr := 0, addrspacelen := 100, expect_func_align := 2,
    expect_sect_align := 16, section_addr := [("s", 0)], section_size := [],
    dry_run := false }

/-- C6 counterexample: the highest (only) section's back-filled size is
`baseaddr + addrspacelen + 1 - addr = 101`, not "the address-space limit
minus one section-alignment unit of headroom" (`2^32 - 16`) as the claim
describes — the claimed budget only acts as a cap. -/
theorem armfw_bin2elf_update_sect_sizes_budget_cex :
    armfw_bin2elf_update_sect_sizes c6po ["s"] (2 ^ 32 - 1) =
      .ok ({ c6po with section_size := [("s", 101)] }, []) ∧
    (101 : Int) ≠ (2 ^ 32 - 1) + 1 - 16 - 0 := ⟨rfl, by decide⟩

/-- C6 amended: processing in reverse address order and writing the
effective `sectaddr_next` of each section as the matching entry of
`nextsOf` (the next higher section's address, or `baseaddr + addrspacelen
+ 1` for the highest), each completed run assigns a provably nonnegative
budget `min next (limit + 1 - expect_sect_align) - addr`; a missing size
becomes exactly the budget, an explicit size above the budget is clamped
to it with a warning recorded, an explicit size within budget is kept
unchanged with no warning. -/
theorem armfw_bin2elf_update_sect_sizes_spec (po : Po) (order : List String)
    (limit : Int) (po' : Po) (warns : List String)
    (h : armfw_bin2elf_update_sect_sizes po order limit = .ok (po', warns))
    (hnd : order.Nodup) (n : String) (nx a : Int)
    (hzip : (n, nx) ∈ order.reverse.zip
      (nextsOf po.section_addr order.reverse
        ((po.baseaddr : Int) + po.addrspacelen + 1)))
    (ha : dictGet po.section_addr n = some a) :
    0 ≤ min nx (limit + 1 - po.expect_sect_align) - a ∧
    dictGet po'.section_size n = some (match dictGet po.section_size n with
      | none => min nx (limit + 1 - po.expect_sect_align) - a
      | some s => min s (min nx (limit + 1 - po.expect_sect_align) - a)) ∧
    (n ∈ warns ↔ ∃ s, dictGet po.section_size n = some s ∧
      min nx (limit + 1 - po.expect_sect_align) - a < s) := by
  unfold armfw_bin2elf_update_sect_sizes at h
  cases hg : sizes_go po.expect_sect_align limit po.section_addr order.reverse
      ((po.baseaddr : Int) + po.addrspacelen + 1) po.section_size [] with
  | error u => rw [hg] at h; cases h
  | ok res =>
    rw [hg] at h
    injection h with h
    obtain ⟨h1, h2⟩ := Prod.mk.injEq _ _ _ _ |>.mp h
    have hres1 : po'.section_size = res.1 := by rw [← h1]
    have hres2 : warns = res.2 := by rw [← h2]
    have := sizes_go_spec po.expect_sect_align limit po.section_addr
      order.reverse _ _ _ _ hg (List.nodup_reverse.mpr hnd) n nx a hzip ha
    rw [hres1, hres2]
    refine ⟨this.1, this.2.1, ?_⟩
    rw [this.2.2]
    simp

/-- C6 witness configuration: two sections, the lower with no explicit
size, the higher with an explicit size exceeding its budget. -/
def c6wpo : Po :=
  { baseaddr := 0, addrspacelen := 100, expect_func_align := 2,
    expect_sect_align := 16, section_addr := [("s1", 0), ("s2", 50)],
    section_size := [("s2", 60)], dry_run := false }

/-- Witness for the amended C6: section `s2` (budget
`min 101 (2^32 - 16) - 50 = 51`) has its explicit size 60 clamped to 51
with a warning. -/
theorem armfw_bin2elf_update_sect_sizes_spec_witness :
    0 ≤ min (101 : Int) ((2 ^ 32 - 1) + 1 - c6wpo.expect_sect_align) - 50 ∧
    dictGet ({ c6wpo with section_size := [("s2", 51), ("s1", 50)] } : Po).section_size "s2" =
      some (match dictGet c6wpo.section_size "s2" with
        | none => min (101 : Int) ((2 ^ 32 - 1) + 1 - c6wpo.expect_sect_align) - 50
        | some s => min s (min (101 : Int) ((2 ^ 32 - 1) + 1 - c6wpo.expect_sect_align) - 50)) ∧
    ("s2" ∈ ["s2"] ↔ ∃ s, dictGet c6wpo.section_size "s2" = some s ∧
      min (101 : Int) ((2 ^ 32 - 1) + 1 - c6wpo.expect_sect_align) - 50 < s) :=
  armfw_bin2elf_update_sect_sizes_spec c6wpo ["s1", "s2"] (2 ^ 32 - 1)
    { c6wpo with section_size := [("s2", 51), ("s1", 50)] } ["s2"] (by rfl)
    (by decide) "s2" 101 50 (by decide) rfl

/-! ## Claim C8: determinism of the conversion -/

/-- C8: the conversion relation is a function of the image, template and
configuration — two runs over identical inputs resolve identical layouts
(order, addresses, sizes, alignments, file positions) and identical
containers. -/
theorem armfw_bin2elf_deterministic (po : Po) (file : List Nat)
    (tmpl : List ElfSect) (r1 r2 : ConvResult)
    (h1 : RunsTo po file tmpl r1) (h2 : RunsTo po file tmpl r2) : r1 = r2 := by
  cases h1 with
  | mk po1 po2 po3 po4 po5 warns order warnO aligns poss em
      ha1 ha2 ha3 ha4 ha5 ha6 ha7 ha8 ha9 =>
    cases h2 with
    | mk q1 q2 q3 q4 q5 warns' order' warnO' aligns' poss' em'
        hb1 hb2 hb3 hb4 hb5 hb6 hb7 hb8 hb9 =>
      rw [ha1] at hb1
      injection hb1 with e1
      subst e1
      rw [ha2] at hb2
      injection hb2 with e2
      subst e2
      rw [ha3] at hb3
      injection hb3 with e3
      subst e3
      rw [ha4] at hb4
      injection hb4 with e4
      subst e4
      rw [ha5] at hb5
      obtain ⟨e5a, e5b⟩ := Prod.mk.injEq _ _ _ _ |>.mp hb5
      subst e5a
      subst e5b
      rw [ha6] at hb6
      injection hb6 with e6
      obtain ⟨e6a, e6b⟩ := Prod.mk.injEq _ _ _ _ |>.mp e6
      subst e6a
      subst e6b
      rw [ha7] at hb7
      injection hb7 with e7
      subst e7
      rw [ha8] at hb8
      injection hb8 with e8
      subst e8
      rw [ha9] at hb9
      injection hb9 with e9
      subst e9
      rfl

/-- A successful run of the composed conversion function is a `RunsTo`
derivation (adequacy of the relation for the function). -/
theorem armfw_bin2elf_runsTo (po : Po) (file : List Nat) (tmpl : List ElfSect)
    (r : ConvResult) (h : armfw_bin2elf po file tmpl = .ok r) :
    RunsTo po file tmpl r := by
  unfold armfw_bin2elf at h
  split at h
  · cases h
  · rename_i po1 hs1
    split at h
    · cases h
    · rename_i po2 hs2
      split at h
      · cases h
      · rename_i po3 hs3
        split at h
        · cases h
        · rename_i po4 hs4
          split at h
          · cases h
          · rename_i po5 warns hs6
            split at h
            · cases h
            · rename_i aligns hs7
              split at h
              · cases h
              · rename_i poss hs8
                split at h
                · cases h
                · rename_i em hs9
                  injection h with h
                  rw [← h]
                  exact RunsTo.mk po1 po2 po3 po4 po5 warns
                    ((armfw_bin2elf_get_sections_order po4 (2 ^ 32 - 1)).1)
                    ((armfw_bin2elf_get_sections_order po4 (2 ^ 32 - 1)).2)
                    aligns poss em hs1 hs2 hs3 hs4 rfl hs6 hs7 hs8 hs9

/-- Configuration for the C8 witness run (defaults scaled down: base 256,
address space 4096, standard alignment constants, no overrides). -/
def c8po : Po :=
  { baseaddr := 256, addrspacelen := 4096, expect_func_align := 2,
    expect_sect_align := 16, section_addr := [], section_size := [],
    dry_run := false }

/-- Minimal template for the C8 witness run. -/
def c8tmpl : List ElfSect :=
  [ { name := ".text", nobits := false, sh_addr := 0, sh_addralign := 0,
      sh_size := 0, data := [] },
    { name := ".ARM.exidx", nobits := false, sh_addr := 0, sh_addralign := 0,
      sh_size := 0, data := [] },
    { name := ".data", nobits := false, sh_addr := 0, sh_addralign := 0,
      sh_size := 0, data := [] },
    { name := ".bss", nobits := true, sh_addr := 0, sh_addralign := 0,
      sh_size := 0, data := [] } ]

/-- The result of the C8 witness run (the conversion succeeds on
`file48`). -/
def c8res : ConvResult :=
  match armfw_bin2elf c8po file48 c8tmpl with
  | .ok r => r
  | .error _ =>
    { order := [], addrs := [], sizes := [], aligns := [], poss := [],
      container := none }

set_option maxRecDepth 1000000 in
/-- Witness for C8: a complete concrete conversion run, fed twice into the
determinism theorem. -/
theorem armfw_bin2elf_deterministic_witness : c8res = c8res :=
  armfw_bin2elf_deterministic c8po file48 c8tmpl c8res c8res
    (armfw_bin2elf_runsTo c8po file48 c8tmpl c8res (by rfl))
    (armfw_bin2elf_runsTo c8po file48 c8tmpl c8res (by rfl))
